import Mathlib

/-!
# Formal model of the csb-foss core pipeline

Shallow embedding of the algorithmic core of `csb_foss`:

* `src/csb_foss/raster/combine.py` — temporal-signature encoder
  (`encode_year_sequence`, `decode_sequence`, `combine_cdl_rasters_windowed`);
* `src/csb_foss/vector/vectorize.py` — `filter_by_crop_presence`;
* `src/csb_foss/vector/eliminate.py` / `eliminate_fast.py` — small-polygon
  elimination engine;
* `src/csb_foss/pipeline/tiled_create.py` — tile orchestrator
  (`generate_state_tiles`, `process_tile`, `create_csb_tiled`).

Machine integers are modelled as `Nat` with explicit `% 2^64` where the numpy
`uint64` accumulator can wrap; rasters are lists of per-pixel byte tuples;
polygon geometry is modelled as finite sets of unit grid cells (discrete,
exact analogue of planar polygon geometry).
-/

namespace CsbFoss

/-! ## Signature encoder (`raster/combine.py`) -/

/-- Modulus of the numpy `uint64` accumulator used by `encode_year_sequence`. -/
def U64 : Nat := 2 ^ 64

/-- `decode_sequence(value, n_years)` from `combine.py`:
repeatedly take `value % 256` and divide by 256, `n_years` times. -/
def decode_sequence (value : Nat) : Nat → List Nat
  | 0 => []
  | n + 1 => value % 256 :: decode_sequence (value / 256) n

/-- One pixel's view of the accumulation loop
`for i in range(n_years): combined += stack[i].astype(np.uint64) * (256 ** i)`.
`acc` is the pixel's `combined` cell, `vals` the remaining per-year values
(`stack[i]` at this pixel), `i` the current year index.  All `uint64`
array arithmetic wraps modulo `2^64`. -/
def combineAux (acc : Nat) : List Nat → Nat → Nat
  | [], _ => acc
  | v :: rest, i => combineAux ((acc + v * 256 ^ i % U64) % U64) rest (i + 1)

/-- The combined `uint64` signature value of one pixel's per-year value list. -/
def pixelCombined (vals : List Nat) : Nat := combineAux 0 vals 0

/-- numpy refuses to convert the Python scalar `256 ** i` to `uint64` once it
exceeds the `uint64` range, so the accumulation loop raises (instead of
producing output) as soon as some year index `i < n_years` has
`2^64 ≤ 256^i`, i.e. from the 9th year on.  This predicate mirrors that
per-year scalar conversion. -/
def overflowYears (n_years : Nat) : Bool :=
  (List.range n_years).any (fun i => decide (U64 ≤ 256 ^ i))

/-- Insertion step of an ascending sort (model of `np.unique`'s sorting). -/
def insertSorted (x : Nat) : List Nat → List Nat
  | [] => [x]
  | y :: ys => if x ≤ y then x :: y :: ys else y :: insertSorted x ys

/-- `np.unique(combined)`: the distinct values of `combined` in ascending
order (sort, then drop duplicates). -/
def npUnique (l : List Nat) : List Nat := (l.foldr insertSorted []).dedup

/-- Index of the first occurrence of `v` (the `return_inverse` index of
`np.unique`: position of a pixel's combined value in the sorted
distinct-value array). -/
def uniqueIndexOf (v : Nat) : List Nat → Nat
  | [] => 0
  | x :: xs => if x = v then 0 else uniqueIndexOf v xs + 1

/-- `encode_year_sequence(stack)` from `combine.py`.  `pixels` lists each
pixel's per-year value tuple (`stack[:, r, c]`, row-major).  Output: the
compact code of every pixel (`inverse` of `np.unique`) together with the
lookup table `lookup[code] = decode_sequence(unique_vals[code], n_years)`.
The `Except` layer models the numpy `OverflowError` raised by the scalar
conversion of `256 ** i` (see `overflowYears`). -/
def encode_year_sequence (n_years : Nat) (pixels : List (List Nat)) :
    Except String (List Nat × List (List Nat)) :=
  if overflowYears n_years then
    Except.error "OverflowError: int too big to convert to uint64"
  else
    let combined := pixels.map pixelCombined
    let uniqueVals := npUnique combined
    Except.ok (combined.map (fun v => uniqueIndexOf v uniqueVals),
               uniqueVals.map (fun v => decode_sequence v n_years))

/-- Dictionary lookup (Python `dict` access keyed by the combined value or
the signature code). -/
def alookup {β : Type} (a : Nat) : List (Nat × β) → Option β
  | [] => none
  | (k, v) :: rest => if k = a then some v else alookup a rest

/-- Persistent encoder state of `combine_cdl_rasters_windowed`: the
value→code table shared across all windows of a run, the accumulated
global lookup (code → decoded tuple), and the next fresh code. -/
structure WinState where
  valueToCode : List (Nat × Nat)
  globalLookup : List (Nat × List Nat)
  nextCode : Nat
  deriving Repr, DecidableEq

/-- Empty state before the first window (`global_lookup = {}`,
`value_to_code = {}`, `next_code = 0`). -/
def WinState.init : WinState := ⟨[], [], 0⟩

/-- Body of `for val in np.unique(combined)` in
`combine_cdl_rasters_windowed`: a not-yet-seen combined value gets the next
fresh code and a decoded lookup entry; a seen value leaves the state alone. -/
def processVal (n_years : Nat) (st : WinState) (val : Nat) : WinState :=
  match alookup val st.valueToCode with
  | some _ => st
  | none =>
      { valueToCode := st.valueToCode ++ [(val, st.nextCode)],
        globalLookup := st.globalLookup ++ [(st.nextCode, decode_sequence val n_years)],
        nextCode := st.nextCode + 1 }

/-- Processing of one window of `combine_cdl_rasters_windowed`: compute the
combined `uint64` value of each pixel, register each distinct value (in
ascending `np.unique` order) in the persistent table, and write the coded
window (`coded[mask] = value_to_code[val]`; since every distinct value of
this window is in the table after the loop and the table only grows, the
written code of a pixel is the table's code for its combined value). -/
def processWindow (n_years : Nat) (st : WinState) (window : List (List Nat)) :
    WinState × List Nat :=
  let combined := window.map pixelCombined
  let st' := (npUnique combined).foldl (processVal n_years) st
  (st', combined.map (fun v => ((alookup v st'.valueToCode).getD 0)))

/-- One iteration of the window loop of `combine_cdl_rasters_windowed`,
threading the persistent state and the coded windows written so far.  The
per-window `OverflowError` of the accumulation loop (see `overflowYears`)
is raised inside the loop body. -/
def windowStep (n_years : Nat) (acc : WinState × List (List Nat))
    (window : List (List Nat)) : Except String (WinState × List (List Nat)) :=
  if overflowYears n_years then
    Except.error "OverflowError: int too big to convert to uint64"
  else
    let (st', coded) := processWindow n_years acc.1 window
    Except.ok (st', acc.2 ++ [coded])

/-- `combine_cdl_rasters_windowed(paths, ...)` restricted to its encoding
core: fold the windows in sequence through the persistent state, collecting
each window's coded output. -/
def combine_cdl_rasters_windowed (n_years : Nat) (windows : List (List (List Nat))) :
    Except String (WinState × List (List Nat)) :=
  windows.foldlM (windowStep n_years) (WinState.init, [])

/-- Exact (unwrapped) base-256 value of a per-year tuple:
`Σ value_i · 256^i`. -/
def exactVal : List Nat → Nat
  | [] => 0
  | v :: rest => v + 256 * exactVal rest

theorem exactVal_lt (vals : List Nat) (h : ∀ v ∈ vals, v < 256) :
    exactVal vals < 256 ^ vals.length := by
  induction vals with
  | nil => simp [exactVal]
  | cons v rest ih =>
    have hv : v < 256 := h v (by simp)
    have hr := ih (fun x hx => h x (by simp [hx]))
    simp only [exactVal, List.length_cons]
    calc v + 256 * exactVal rest < 256 + 256 * exactVal rest := by omega
    _ = 256 * (exactVal rest + 1) := by ring
    _ ≤ 256 * 256 ^ rest.length := Nat.mul_le_mul_left _ hr
    _ = 256 ^ (rest.length + 1) := by rw [pow_succ, Nat.mul_comm]

theorem combineAux_eq (vals : List Nat) : ∀ acc i : Nat, (∀ v ∈ vals, v < 256) →
    acc + 256 ^ i * exactVal vals < U64 →
    combineAux acc vals i = acc + 256 ^ i * exactVal vals := by
  induction vals with
  | nil => intro acc i _ _; simp [combineAux, exactVal]
  | cons v rest ih =>
    intro acc i h hlt
    have hT : acc + 256 ^ i * exactVal (v :: rest)
        = acc + v * 256 ^ i + 256 ^ (i + 1) * exactVal rest := by
      simp only [exactVal]; ring
    have hmul : v * 256 ^ i % U64 = v * 256 ^ i := by
      apply Nat.mod_eq_of_lt
      have : v * 256 ^ i ≤ acc + 256 ^ i * exactVal (v :: rest) := by
        rw [hT]; omega
      omega
    have hadd : (acc + v * 256 ^ i) % U64 = acc + v * 256 ^ i := by
      apply Nat.mod_eq_of_lt
      have : acc + v * 256 ^ i ≤ acc + 256 ^ i * exactVal (v :: rest) := by
        rw [hT]; omega
      omega
    simp only [combineAux, hmul, hadd]
    rw [ih (acc + v * 256 ^ i) (i + 1) (fun x hx => h x (by simp [hx]))
      (by rw [hT] at hlt; omega)]
    rw [hT]

theorem pow256_le_U64 {n : Nat} (hn : n ≤ 8) : 256 ^ n ≤ U64 := by
  calc 256 ^ n ≤ 256 ^ 8 := Nat.pow_le_pow_right (by norm_num) hn
  _ = U64 := by norm_num [U64]

theorem pixelCombined_eq (vals : List Nat) (h : ∀ v ∈ vals, v < 256)
    (hlen : vals.length ≤ 8) : pixelCombined vals = exactVal vals := by
  have hlt : exactVal vals < U64 :=
    Nat.lt_of_lt_of_le (exactVal_lt vals h) (pow256_le_U64 hlen)
  unfold pixelCombined
  rw [combineAux_eq vals 0 0 h (by simpa using hlt)]
  ring

theorem decode_exactVal (vals : List Nat) (h : ∀ v ∈ vals, v < 256) :
    decode_sequence (exactVal vals) vals.length = vals := by
  induction vals with
  | nil => simp [decode_sequence]
  | cons v rest ih =>
    have hv : v < 256 := h v (by simp)
    simp only [exactVal, List.length_cons, decode_sequence]
    rw [Nat.add_mul_mod_self_left, Nat.mod_eq_of_lt hv,
      Nat.add_mul_div_left _ _ (by norm_num : (0:Nat) < 256),
      Nat.div_eq_of_lt hv, Nat.zero_add,
      ih (fun x hx => h x (by simp [hx]))]

/-- **C10**: for every per-year value tuple with each value in `[0,255]` and
at most 8 years, the combined `uint64` value computed by
`encode_year_sequence`'s accumulation loop equals the exact base-256 sum
`Σ value_i · 256^i`, and `decode_sequence` applied to it with the same year
count returns the original tuple exactly. -/
theorem C10_encode_decode_roundtrip (vals : List Nat)
    (hv : ∀ v ∈ vals, v < 256) (hlen : vals.length ≤ 8) :
    pixelCombined vals = exactVal vals ∧
    decode_sequence (pixelCombined vals) vals.length = vals := by
  have he := pixelCombined_eq vals hv hlen
  exact ⟨he, by rw [he]; exact decode_exactVal vals hv⟩

/-- Concrete instance of `C10_encode_decode_roundtrip` at the tuple
`(1, 255, 0, 45)`. -/
theorem C10_encode_decode_roundtrip_witness :
    pixelCombined [1, 255, 0, 45] = exactVal [1, 255, 0, 45] ∧
    decode_sequence (pixelCombined [1, 255, 0, 45]) 4 = [1, 255, 0, 45] :=
  C10_encode_decode_roundtrip [1, 255, 0, 45] (by decide) (by decide)

theorem overflowYears_true {n : Nat} (hn : 8 < n) : overflowYears n = true := by
  unfold overflowYears
  rw [List.any_eq_true]
  exact ⟨8, by rw [List.mem_range]; omega, by norm_num [U64]⟩

theorem overflowYears_false {n : Nat} (hn : n ≤ 8) : overflowYears n = false := by
  unfold overflowYears
  rw [List.any_eq_false]
  intro i hi
  simp only [List.mem_range] at hi
  simp only [decide_eq_true_eq, not_le]
  calc 256 ^ i ≤ 256 ^ 7 := Nat.pow_le_pow_right (by norm_num) (by omega)
  _ < U64 := by norm_num [U64]

/-- **C2**: for every stack with more than 8 years, both the whole-array
encoder and the windowed encoder (on any non-empty window list) fail with
an error instead of producing a coded raster: the per-year scalar `256^i`
no longer fits the 64-bit accumulator from `i = 8` on. -/
theorem C2_overflow_fails_fast (n_years : Nat) (pixels : List (List Nat))
    (windows : List (List (List Nat))) (hn : 8 < n_years) (hw : windows ≠ []) :
    (∃ msg, encode_year_sequence n_years pixels = Except.error msg) ∧
    (∃ msg, combine_cdl_rasters_windowed n_years windows = Except.error msg) := by
  constructor
  · refine ⟨"OverflowError: int too big to convert to uint64", ?_⟩
    unfold encode_year_sequence
    rw [overflowYears_true hn]
    rfl
  · obtain ⟨w, rest, rfl⟩ : ∃ w rest, windows = w :: rest := by
      cases windows with
      | nil => exact absurd rfl hw
      | cons w rest => exact ⟨w, rest, rfl⟩
    refine ⟨"OverflowError: int too big to convert to uint64", ?_⟩
    unfold combine_cdl_rasters_windowed
    rw [List.foldlM_cons]
    unfold windowStep
    rw [overflowYears_true hn]
    rfl

/-- Concrete instance of `C2_overflow_fails_fast` at a 9-year stack. -/
theorem C2_overflow_fails_fast_witness :
    (∃ msg, encode_year_sequence 9 [[1, 1, 1, 1, 1, 1, 1, 1, 1]] =
      Except.error msg) ∧
    (∃ msg, combine_cdl_rasters_windowed 9 [[[1, 1, 1, 1, 1, 1, 1, 1, 1]]] =
      Except.error msg) :=
  C2_overflow_fails_fast 9 _ _ (by decide) (by decide)

theorem mem_insertSorted {x y : Nat} : ∀ {l : List Nat},
    y ∈ insertSorted x l ↔ y = x ∨ y ∈ l := by
  intro l
  induction l with
  | nil => simp [insertSorted]
  | cons z zs ih =>
    simp only [insertSorted]
    by_cases h : x ≤ z
    · simp [h, List.mem_cons]
    · simp only [if_neg h, List.mem_cons, ih]
      tauto

theorem mem_foldr_insertSorted {v : Nat} : ∀ {l : List Nat},
    v ∈ l → v ∈ l.foldr insertSorted [] := by
  intro l
  induction l with
  | nil => simp
  | cons x xs ih =>
    intro hv
    rw [List.foldr_cons, mem_insertSorted]
    rcases List.mem_cons.mp hv with h | h
    · exact Or.inl h
    · exact Or.inr (ih h)

theorem mem_npUnique {v : Nat} {l : List Nat} (h : v ∈ l) : v ∈ npUnique l :=
  List.mem_dedup.mpr (mem_foldr_insertSorted h)

theorem lookup_map_decode (n : Nat) : ∀ (l : List Nat) (v : Nat), v ∈ l →
    (l.map (fun w => decode_sequence w n)).getD (uniqueIndexOf v l) [] =
      decode_sequence v n := by
  intro l
  induction l with
  | nil => simp
  | cons x xs ih =>
    intro v hv
    by_cases hx : x = v
    · simp only [List.map_cons, uniqueIndexOf, if_pos hx, List.getD_cons_zero]
      rw [hx]
    · have hvx : v ∈ xs := by
        rcases List.mem_cons.mp hv with h | h
        · exact absurd h.symm hx
        · exact h
      simp only [List.map_cons, uniqueIndexOf, if_neg hx, List.getD_cons_succ]
      exact ih v hvx

/-- Whole-array half of C1: `encode_year_sequence` assigns each pixel the
index of its combined value among the sorted distinct values, and the
lookup entry of that code is exactly the pixel's per-year tuple. -/
theorem encode_whole_spec (n : Nat) (pixels : List (List Nat)) (hn : n ≤ 8)
    (hlen : ∀ p ∈ pixels, p.length = n)
    (hval : ∀ p ∈ pixels, ∀ v ∈ p, v < 256) :
    encode_year_sequence n pixels =
      Except.ok
        (pixels.map (fun p =>
          uniqueIndexOf (pixelCombined p) (npUnique (pixels.map pixelCombined))),
         (npUnique (pixels.map pixelCombined)).map (fun v => decode_sequence v n)) ∧
    ∀ p ∈ pixels,
      ((npUnique (pixels.map pixelCombined)).map (fun v => decode_sequence v n)).getD
        (uniqueIndexOf (pixelCombined p) (npUnique (pixels.map pixelCombined))) [] = p := by
  constructor
  · unfold encode_year_sequence
    rw [overflowYears_false hn]
    simp [List.map_map, Function.comp]
  · intro p hp
    have hmem : pixelCombined p ∈ npUnique (pixels.map pixelCombined) :=
      mem_npUnique (List.mem_map_of_mem _ hp)
    rw [lookup_map_decode n _ _ hmem,
      pixelCombined_eq p (hval p hp) (by rw [hlen p hp]; exact hn), ← hlen p hp]
    exact decode_exactVal p (hval p hp)

theorem alookup_append_some {β : Type} {a : Nat} {l₂ : List (Nat × β)} {b : β} :
    ∀ {l₁ : List (Nat × β)}, alookup a l₁ = some b → alookup a (l₁ ++ l₂) = some b := by
  intro l₁
  induction l₁ with
  | nil => intro h; simp [alookup] at h
  | cons e es ih =>
    intro h
    obtain ⟨k, w⟩ := e
    simp only [alookup, List.cons_append] at h ⊢
    by_cases hk : k = a
    · simpa [hk] using h
    · rw [if_neg hk] at h ⊢
      exact ih h

theorem alookup_append_none {β : Type} {a : Nat} {l₂ : List (Nat × β)} :
    ∀ {l₁ : List (Nat × β)}, alookup a l₁ = none →
      alookup a (l₁ ++ l₂) = alookup a l₂ := by
  intro l₁
  induction l₁ with
  | nil => intro _; simp
  | cons e es ih =>
    intro h
    obtain ⟨k, w⟩ := e
    simp only [alookup, List.cons_append] at h ⊢
    by_cases hk : k = a
    · rw [if_pos hk] at h; exact absurd h (by simp)
    · rw [if_neg hk] at h ⊢
      exact ih h

theorem alookup_none_of_keys {β : Type} {a : Nat} :
    ∀ {l : List (Nat × β)}, (∀ e ∈ l, e.1 ≠ a) → alookup a l = none := by
  intro l
  induction l with
  | nil => intro _; rfl
  | cons e es ih =>
    intro h
    obtain ⟨k, w⟩ := e
    simp only [alookup]
    rw [if_neg (h (k, w) (by simp))]
    exact ih (fun e he => h e (by simp [he]))

/-- Invariant of the persistent windowed-encoder state: every registered
combined value's code is below the fresh-code counter, every lookup key is
below it as well, and the lookup entry of a registered value's code is that
value's decoded per-year tuple. -/
structure StInv (n : Nat) (st : WinState) : Prop where
  consistent : ∀ v c, alookup v st.valueToCode = some c →
    alookup c st.globalLookup = some (decode_sequence v n)
  vcLt : ∀ e ∈ st.valueToCode, e.2 < st.nextCode
  glLt : ∀ e ∈ st.globalLookup, e.1 < st.nextCode

theorem stInv_init (n : Nat) : StInv n WinState.init := by
  constructor
  · intro v c h; simp [WinState.init, alookup] at h
  · intro e he; simp [WinState.init] at he
  · intro e he; simp [WinState.init] at he

theorem stInv_processVal {n : Nat} {st : WinState} (h : StInv n st) (val : Nat) :
    StInv n (processVal n st val) := by
  cases hl : alookup val st.valueToCode with
  | some c => simpa [processVal, hl] using h
  | none =>
    simp only [processVal, hl]
    constructor
    · intro v c hv
      simp only at hv
      cases hvold : alookup v st.valueToCode with
      | some c₀ =>
        rw [alookup_append_some hvold] at hv
        obtain rfl : c₀ = c := Option.some.inj hv
        exact alookup_append_some (h.consistent v c₀ hvold)
      | none =>
        rw [alookup_append_none hvold] at hv
        simp only [alookup] at hv
        by_cases hvv : val = v
        · rw [if_pos hvv] at hv
          obtain rfl : st.nextCode = c := Option.some.inj hv
          rw [alookup_append_none
            (alookup_none_of_keys (fun e he => Nat.ne_of_lt (h.glLt e he)))]
          simp [alookup, hvv]
        · rw [if_neg hvv] at hv
          exact absurd hv (by simp)
    · intro e he
      rcases List.mem_append.mp he with h1 | h2
      · exact Nat.lt_succ_of_lt (h.vcLt e h1)
      · simp only [List.mem_singleton] at h2
        rw [h2]
        exact Nat.lt_succ_self _
    · intro e he
      rcases List.mem_append.mp he with h1 | h2
      · exact Nat.lt_succ_of_lt (h.glLt e h1)
      · simp only [List.mem_singleton] at h2
        rw [h2]
        exact Nat.lt_succ_self _

theorem alookup_processVal_mono {n val : Nat} {st : WinState} {v c : Nat}
    (h : alookup v st.valueToCode = some c) :
    alookup v (processVal n st val).valueToCode = some c := by
  cases hl : alookup val st.valueToCode with
  | some _ => simpa [processVal, hl] using h
  | none =>
    simp only [processVal, hl]
    exact alookup_append_some h

theorem stInv_foldl {n : Nat} : ∀ (vs : List Nat) (st : WinState), StInv n st →
    StInv n (vs.foldl (processVal n) st) := by
  intro vs
  induction vs with
  | nil => intro st h; exact h
  | cons x xs ih =>
    intro st h
    rw [List.foldl_cons]
    exact ih _ (stInv_processVal h x)

theorem alookup_foldl_mono {n : Nat} : ∀ (vs : List Nat) (st : WinState) {v c : Nat},
    alookup v st.valueToCode = some c →
    alookup v ((vs.foldl (processVal n) st)).valueToCode = some c := by
  intro vs
  induction vs with
  | nil => intro st v c h; exact h
  | cons x xs ih =>
    intro st v c h
    rw [List.foldl_cons]
    exact ih _ (alookup_processVal_mono h)

theorem foldl_covers {n : Nat} : ∀ (vs : List Nat) (st : WinState) (v : Nat), v ∈ vs →
    ∃ c, alookup v ((vs.foldl (processVal n) st)).valueToCode = some c := by
  intro vs
  induction vs with
  | nil => intro st v hv; simp at hv
  | cons x xs ih =>
    intro st v hv
    rw [List.foldl_cons]
    rcases List.mem_cons.mp hv with rfl | h
    · have hpresent : ∃ c, alookup v (processVal n st v).valueToCode = some c := by
        cases hl : alookup v st.valueToCode with
        | some c => exact ⟨c, by simp [processVal, hl]⟩
        | none =>
          refine ⟨st.nextCode, ?_⟩
          simp only [processVal, hl]
          rw [alookup_append_none hl]
          simp [alookup]
      obtain ⟨c, hc⟩ := hpresent
      exact ⟨c, alookup_foldl_mono xs _ hc⟩
    · exact ih _ v h

theorem processWindow_spec (n : Nat) (st : WinState) (w : List (List Nat))
    (h : StInv n st) :
    StInv n (processWindow n st w).1 ∧
    (∀ v c, alookup v st.valueToCode = some c →
      alookup v (processWindow n st w).1.valueToCode = some c) ∧
    (∀ p ∈ w, (alookup (pixelCombined p) (processWindow n st w).1.valueToCode).isSome) ∧
    (processWindow n st w).2 =
      w.map (fun p => (alookup (pixelCombined p)
        (processWindow n st w).1.valueToCode).getD 0) := by
  refine ⟨stInv_foldl _ st h, fun v c hv => alookup_foldl_mono _ st hv, ?_, ?_⟩
  · intro p hp
    obtain ⟨c, hc⟩ := foldl_covers (npUnique (w.map pixelCombined)) st (pixelCombined p)
      (mem_npUnique (List.mem_map_of_mem _ hp))
    simp only [processWindow]
    rw [hc]
    rfl
  · simp [processWindow, List.map_map, Function.comp]

/-- Windowed half of C1: running the window loop from any invariant state
yields a final state whose table covers every processed pixel, assigns it a
code whose global-lookup entry is its decoded tuple, and each window's coded
output is that final table's code for each of its pixels. -/
theorem windowed_fold_spec (n : Nat) (hov : overflowYears n = false) :
    ∀ (windows : List (List (List Nat))) (st : WinState) (acc : List (List Nat)),
    StInv n st →
    ∃ stF codeds,
      List.foldlM (windowStep n) (st, acc) windows = Except.ok (stF, acc ++ codeds) ∧
      StInv n stF ∧
      (∀ v c, alookup v st.valueToCode = some c →
        alookup v stF.valueToCode = some c) ∧
      codeds = windows.map (fun w => w.map (fun p =>
        (alookup (pixelCombined p) stF.valueToCode).getD 0)) ∧
      (∀ w ∈ windows, ∀ p ∈ w,
        (alookup (pixelCombined p) stF.valueToCode).isSome) := by
  intro windows
  induction windows with
  | nil =>
    intro st acc h
    exact ⟨st, [], by rw [List.append_nil]; rfl, h, fun v c hv => hv, by simp, by simp⟩
  | cons w ws ih =>
    intro st acc h
    obtain ⟨hinv', hmono', hcov', hcoded'⟩ := processWindow_spec n st w h
    obtain ⟨stF, codeds', hrun, hinvF, hmonoF, hmapF, hcovF⟩ :=
      ih (processWindow n st w).1 (acc ++ [(processWindow n st w).2]) hinv'
    refine ⟨stF, (processWindow n st w).2 :: codeds', ?_, hinvF, ?_, ?_, ?_⟩
    · rw [List.foldlM_cons]
      have hstep : windowStep n (st, acc) w =
          Except.ok ((processWindow n st w).1, acc ++ [(processWindow n st w).2]) := by
        simp [windowStep, hov]
      rw [hstep]
      simpa [List.append_assoc] using hrun
    · exact fun v c hv => hmonoF v c (hmono' v c hv)
    · rw [List.map_cons, ← hmapF]
      congr 1
      rw [hcoded']
      apply List.map_congr_left
      intro p hp
      obtain ⟨c, hc⟩ := Option.isSome_iff_exists.mp (hcov' p hp)
      rw [hc, hmonoF _ _ hc]
    · intro w' hw' p hp
      rcases List.mem_cons.mp hw' with rfl | hmem
      · obtain ⟨c, hc⟩ := Option.isSome_iff_exists.mp (hcov' p hp)
        rw [hmonoF _ _ hc]
        rfl
      · exact hcovF w' hmem p hp

/-- **C1**: for a stack processed in one run (whole-array
`encode_year_sequence` on the concatenation of all windows, and windowed
`combine_cdl_rasters_windowed` on the window list), every pixel's assigned
code decodes, through the respective lookup table, to exactly that pixel's
per-year value tuple — so both encodings decode every pixel to the same
tuple even though the codes themselves may differ. -/
theorem C1_windowed_whole_consistent (n : Nat) (windows : List (List (List Nat)))
    (hn : n ≤ 8)
    (hlen : ∀ w ∈ windows, ∀ p ∈ w, p.length = n)
    (hval : ∀ w ∈ windows, ∀ p ∈ w, ∀ v ∈ p, v < 256) :
    ∃ stF codedWins,
      encode_year_sequence n windows.flatten =
        Except.ok
          (windows.flatten.map (fun p => uniqueIndexOf (pixelCombined p)
            (npUnique (windows.flatten.map pixelCombined))),
           (npUnique (windows.flatten.map pixelCombined)).map
             (fun v => decode_sequence v n)) ∧
      (∀ p ∈ windows.flatten,
        ((npUnique (windows.flatten.map pixelCombined)).map
          (fun v => decode_sequence v n)).getD
          (uniqueIndexOf (pixelCombined p)
            (npUnique (windows.flatten.map pixelCombined))) [] = p) ∧
      combine_cdl_rasters_windowed n windows = Except.ok (stF, codedWins) ∧
      codedWins = windows.map (fun w => w.map (fun p =>
        (alookup (pixelCombined p) stF.valueToCode).getD 0)) ∧
      (∀ w ∈ windows, ∀ p ∈ w,
        alookup ((alookup (pixelCombined p) stF.valueToCode).getD 0)
          stF.globalLookup = some p) := by
  have hlenj : ∀ p ∈ windows.flatten, p.length = n := by
    intro p hp
    obtain ⟨w, hw, hpw⟩ := List.mem_flatten.mp hp
    exact hlen w hw p hpw
  have hvalj : ∀ p ∈ windows.flatten, ∀ v ∈ p, v < 256 := by
    intro p hp
    obtain ⟨w, hw, hpw⟩ := List.mem_flatten.mp hp
    exact hval w hw p hpw
  obtain ⟨hwhole, hwholeLookup⟩ := encode_whole_spec n windows.flatten hn hlenj hvalj
  obtain ⟨stF, codeds, hrun, hinvF, _, hmapF, hcovF⟩ :=
    windowed_fold_spec n (overflowYears_false hn) windows WinState.init []
      (stInv_init n)
  refine ⟨stF, codeds, hwhole, hwholeLookup, ?_, hmapF, ?_⟩
  · unfold combine_cdl_rasters_windowed
    simpa using hrun
  · intro w hw p hp
    obtain ⟨c, hc⟩ := Option.isSome_iff_exists.mp (hcovF w hw p hp)
    rw [hc]
    have hdecoded := hinvF.consistent (pixelCombined p) c hc
    rw [pixelCombined_eq p (hval w hw p hp) (by rw [hlen w hw p hp]; exact hn)] at hdecoded
    rw [show ((some c).getD 0) = c from rfl, hdecoded,
      ← hlen w hw p hp, decode_exactVal p (hval w hw p hp)]

/-- Concrete instance of `C1_windowed_whole_consistent`: a two-window run
of a 2-year stack with a repeated tuple across windows. -/
theorem C1_windowed_whole_consistent_witness :
    ∃ stF codedWins,
      encode_year_sequence 2 [[[1, 2], [3, 4]], [[1, 2]]].flatten =
        Except.ok
          ([[[1, 2], [3, 4]], [[1, 2]]].flatten.map (fun p => uniqueIndexOf (pixelCombined p)
            (npUnique ([[[1, 2], [3, 4]], [[1, 2]]].flatten.map pixelCombined))),
           (npUnique ([[[1, 2], [3, 4]], [[1, 2]]].flatten.map pixelCombined)).map
             (fun v => decode_sequence v 2)) ∧
      (∀ p ∈ [[[1, 2], [3, 4]], [[1, 2]]].flatten,
        ((npUnique ([[[1, 2], [3, 4]], [[1, 2]]].flatten.map pixelCombined)).map
          (fun v => decode_sequence v 2)).getD
          (uniqueIndexOf (pixelCombined p)
            (npUnique ([[[1, 2], [3, 4]], [[1, 2]]].flatten.map pixelCombined))) [] = p) ∧
      combine_cdl_rasters_windowed 2 [[[1, 2], [3, 4]], [[1, 2]]] =
        Except.ok (stF, codedWins) ∧
      codedWins = [[[1, 2], [3, 4]], [[1, 2]]].map (fun w => w.map (fun p =>
        (alookup (pixelCombined p) stF.valueToCode).getD 0)) ∧
      (∀ w ∈ [[[1, 2], [3, 4]], [[1, 2]]], ∀ p ∈ w,
        alookup ((alookup (pixelCombined p) stF.valueToCode).getD 0)
          stF.globalLookup = some p) :=
  C1_windowed_whole_consistent 2 [[[1, 2], [3, 4]], [[1, 2]]] (by decide)
    (by decide) (by decide)

/-! ## Discrete polygon geometry

Polygon geometry is modelled exactly as finite sets of unit grid cells: the
polygon of `g : Finset Cell` is the union of the closed unit squares
`[i,i+1] × [j,j+1]` for `(i,j) ∈ g`.  Planar area is the cell count,
boundary-intersection length between interior-disjoint polygons is the
number of shared unit edges (4-adjacent cell pairs), polygons intersect
iff cells coincide or are 8-adjacent (squares sharing at least a corner),
and a cell set is a single `Polygon` (not a `MultiPolygon`) iff it is
4-connected — squares meeting only at a corner form separate parts, as in
shapely. -/

/-- A unit grid cell `(i, j)` standing for the square `[i,i+1] × [j,j+1]`. -/
abbrev Cell := ℤ × ℤ

/-- Planar area of a cell polygon (`geometry.area`). -/
def area (g : Finset Cell) : ℚ := g.card

/-- Edge adjacency: the two unit squares share a full edge. -/
def adj4 (a b : Cell) : Bool :=
  (a.1 = b.1 ∧ (a.2 = b.2 + 1 ∨ b.2 = a.2 + 1)) ∨
  (a.2 = b.2 ∧ (a.1 = b.1 + 1 ∨ b.1 = a.1 + 1))

/-- Corner-or-edge adjacency: the two distinct unit squares intersect. -/
def adj8 (a b : Cell) : Bool :=
  ¬a = b ∧ (a.1 - b.1).natAbs ≤ 1 ∧ (a.2 - b.2).natAbs ≤ 1

/-- `p.intersects(q)` (which subsumes `p.touches(q)`): the closed polygons
meet, i.e. some cells coincide or are at least corner-adjacent. -/
def cellsIntersect (p q : Finset Cell) : Bool :=
  decide (∃ a ∈ p, ∃ b ∈ q, a = b ∨ adj8 a b = true)

/-- `p.boundary.intersection(q.boundary).length` for interior-disjoint cell
polygons: each 4-adjacent cell pair contributes one shared unit edge;
corner contacts contribute zero-length points.  (The `try/except` around
this computation in the Python code is dead in the model: the discrete
intersection is total.) -/
def sharedBoundaryLength (p q : Finset Cell) : ℚ :=
  ((p ×ˢ q).filter (fun ab => adj4 ab.1 ab.2 = true)).card

/-- `geometry.bounds` of a cell polygon: `(minx, miny, maxx, maxy)` in
real coordinates, `none` for the empty geometry (which the spatial index
never returns). -/
def boundsOf (g : Finset Cell) : Option (ℤ × ℤ × ℤ × ℤ) :=
  if h : g.Nonempty then
    some ((g.image Prod.fst).min' (h.image Prod.fst),
          (g.image Prod.snd).min' (h.image Prod.snd),
          (g.image Prod.fst).max' (h.image Prod.fst) + 1,
          (g.image Prod.snd).max' (h.image Prod.snd) + 1)
  else none

/-- Bounding-box intersection test of the spatial index
(`gdf.sindex.intersection(bounds)`). -/
def bboxIntersect : Option (ℤ × ℤ × ℤ × ℤ) → Option (ℤ × ℤ × ℤ × ℤ) → Bool
  | some (ax1, ay1, ax2, ay2), some (bx1, by1, bx2, by2) =>
      ax1 ≤ bx2 ∧ bx1 ≤ ax2 ∧ ay1 ≤ by2 ∧ by1 ≤ ay2
  | _, _ => false

/-- One breadth-first growth step of a 4-connected component inside `s`. -/
def growComp (s : Finset Cell) (comp : Finset Cell) : Finset Cell :=
  comp ∪ s.filter (fun c => ∃ d ∈ comp, adj4 c d = true)

/-- The 4-connected component of `c` inside `s` (`s.card` growth steps
always reach the fixpoint). -/
def componentOf (s : Finset Cell) (c : Cell) : Finset Cell :=
  (growComp s)^[s.card] {c}

/-- `isinstance(merged, MultiPolygon)`: a nonempty cell set is a
`MultiPolygon` iff it is not 4-connected. -/
def isMultiPart (g : Finset Cell) : Bool :=
  decide (∃ c ∈ g, componentOf g c ≠ g)

/-- Lexicographically smallest cell of a nonempty cell set (canonical
starting point for component enumeration). -/
def pickCell (s : Finset Cell) (h : s.Nonempty) : Cell :=
  let x := (s.image Prod.fst).min' (h.image Prod.fst)
  let ys := (s.filter (fun c => c.1 = x)).image Prod.snd
  have hys : ys.Nonempty := by
    have hx := Finset.min'_mem (s.image Prod.fst) (h.image Prod.fst)
    obtain ⟨c, hc, hcx⟩ := Finset.mem_image.mp hx
    exact ⟨c.2, Finset.mem_image.mpr ⟨c, Finset.mem_filter.mpr ⟨hc, hcx⟩, rfl⟩⟩
  (x, ys.min' hys)

/-- The 4-connected components of a cell set (`merged.geoms` of a
`MultiPolygon`), extracted smallest-cell first. -/
def componentsAux : Nat → Finset Cell → List (Finset Cell)
  | 0, _ => []
  | fuel + 1, s =>
    if h : s.Nonempty then
      let comp := componentOf s (pickCell s h)
      comp :: componentsAux fuel (s \ comp)
    else []

/-- The parts of a (possibly multi-part) cell polygon. -/
def partsOf (g : Finset Cell) : List (Finset Cell) := componentsAux g.card g

/-- `max(parts, key=lambda x: x.area)`: first part of maximal area. -/
def pickLargest (ps : List (Finset Cell)) : Finset Cell :=
  ps.foldl (fun best p => if best.card < p.card then p else best) ∅

/-- `shapely.ops.unary_union` of a list of cell polygons. -/
def unary_union (geoms : List (Finset Cell)) : Finset Cell :=
  geoms.foldr (· ∪ ·) ∅

/-! ## Elimination engine (`vector/eliminate.py`, `vector/eliminate_fast.py`) -/

/-- The candidate list returned by `gdf.sindex.intersection(small_geom.bounds)`:
positions whose geometry's bounding box meets the query bounds (the R-tree
returns them in an unspecified but fixed order; the model fixes ascending
position order). -/
def sindexQuery (small_geom : Finset Cell) (gdf : List (Finset Cell)) : List Nat :=
  (List.range gdf.length).filter
    (fun i => bboxIntersect (boundsOf (gdf.getD i ∅)) (boundsOf small_geom))

/-- The candidate list returned by `tree.query(small_geom, predicate="intersects")`
in `eliminate_fast.py`: positions whose geometry actually intersects. -/
def treeQueryIntersects (small_geom : Finset Cell) (gdf : List (Finset Cell)) :
    List Nat :=
  (List.range gdf.length).filter (fun i => cellsIntersect (gdf.getD i ∅) small_geom)

/-- Body of the candidate loops of `find_longest_shared_boundary_neighbor`
and `find_neighbor_batch`: skip a candidate when `skip` holds (the chain of
`continue`s), otherwise keep the running best `(best_neighbor,
max_shared_length)` unless the candidate's shared length is strictly
greater. -/
def bestStep (skip : Nat → Bool) (len : Nat → ℚ) (st : Option Nat × ℚ)
    (i : Nat) : Option Nat × ℚ :=
  if skip i then st
  else if st.2 < len i then (some i, len i) else st

/-- `find_longest_shared_boundary_neighbor(small_geom, gdf, small_idx,
area_threshold)` from `eliminate.py`: scan the spatial-index candidates,
skipping self, small neighbors (`area <= area_threshold`) and
non-intersecting ones, and return the neighbor with the strictly greatest
shared-boundary length (`None` if no candidate exceeds the initial 0). -/
def find_longest_shared_boundary_neighbor (small_geom : Finset Cell)
    (gdf : List (Finset Cell)) (small_idx : Nat) (area_threshold : ℚ) :
    Option Nat :=
  ((sindexQuery small_geom gdf).foldl
    (bestStep
      (fun i => i = small_idx ∨ area (gdf.getD i ∅) ≤ area_threshold ∨
        ¬cellsIntersect small_geom (gdf.getD i ∅))
      (fun i => sharedBoundaryLength small_geom (gdf.getD i ∅)))
    (none, 0)).1

/-- The per-polygon search of `find_neighbor_batch` from
`eliminate_fast.py`: candidates come from an intersects-predicate tree
query, and only self and small neighbors are skipped. -/
def find_neighbor_fast (small_geom : Finset Cell) (gdf : List (Finset Cell))
    (idx : Nat) (area_threshold : ℚ) : Option Nat :=
  ((treeQueryIntersects small_geom gdf).foldl
    (bestStep
      (fun i => i = idx ∨ area (gdf.getD i ∅) ≤ area_threshold)
      (fun i => sharedBoundaryLength small_geom (gdf.getD i ∅)))
    (none, 0)).1

/-- `target_to_sources` grouping of `apply_merges`: fold the merge map in
insertion order, appending each source to its target's group (first-seen
target order). -/
def addToGroup : List (Nat × List Nat) → Nat → Nat → List (Nat × List Nat)
  | [], t, s => [(t, [s])]
  | (t', ss) :: rest, t, s =>
    if t' = t then (t', ss ++ [s]) :: rest
    else (t', ss) :: addToGroup rest t s

/-- Group all `(source, target)` pairs of the merge map by target. -/
def groupByTarget (mm : List (Nat × Nat)) : List (Nat × List Nat) :=
  mm.foldl (fun acc st => addToGroup acc st.2 st.1) []

/-- The source-collection loop of one merge group: keep each source not yet
dropped and mark it dropped. -/
def collectSrcs : List Nat → Finset Nat → List Nat × Finset Nat
  | [], drop => ([], drop)
  | s :: rest, drop =>
    if s ∈ drop then collectSrcs rest drop
    else
      let (acc, d) := collectSrcs rest (insert s drop)
      (s :: acc, d)

/-- One merge-group application of `apply_merges`: skip the group if its
target was itself dropped; otherwise union the target's geometry with all
not-yet-dropped source geometries, keep only the largest part if the union
is a `MultiPolygon`, and write the result back at the target's position. -/
def applyGroup (st : List (Finset Cell) × Finset Nat) (g : Nat × List Nat) :
    List (Finset Cell) × Finset Nat :=
  if g.1 ∈ st.2 then st
  else
    let (srcs, drop') := collectSrcs g.2 st.2
    let geoms := st.1.getD g.1 ∅ :: srcs.map (fun s => st.1.getD s ∅)
    let merged := unary_union geoms
    let merged := if isMultiPart merged then pickLargest (partsOf merged) else merged
    (st.1.set g.1 merged, drop')

/-- `apply_merges(gdf, merge_map)` from `eliminate.py` (and the identical
`apply_merges_fast`): group by target, merge each group, then drop all
merged source rows and reindex. -/
def apply_merges (gdf : List (Finset Cell)) (mm : List (Nat × Nat)) :
    List (Finset Cell) :=
  let (cur, drop) := (groupByTarget mm).foldl applyGroup (gdf, ∅)
  ((List.range cur.length).filter (fun i => i ∉ drop)).map (fun i => cur.getD i ∅)

/-- How one elimination tier ended: no small polygons left, no merge pair
found (early abort), or the iteration budget ran out. -/
inductive ExitStatus
  | noSmall
  | noMerges
  | exhausted
  deriving DecidableEq, Repr

/-- `small_mask` of one elimination iteration: the positions of the
polygons with area at or below the threshold. -/
def smallIndices (gdf : List (Finset Cell)) (area_threshold : ℚ) : List Nat :=
  (List.range gdf.length).filter (fun i => area (gdf.getD i ∅) ≤ area_threshold)

/-- The `merge_map` built by one elimination iteration: each small polygon
that has a best neighbor maps to it. -/
def buildMergeMap (gdf : List (Finset Cell)) (area_threshold : ℚ) :
    List (Nat × Nat) :=
  (smallIndices gdf area_threshold).filterMap (fun i =>
    (find_longest_shared_boundary_neighbor (gdf.getD i ∅) gdf i
      area_threshold).map (fun t => (i, t)))

/-- `eliminate_small_polygons(gdf, area_threshold, max_iterations)` from
`eliminate.py`: per iteration, find all small polygons (area at or below
the threshold), build the merge map via
`find_longest_shared_boundary_neighbor`, and apply the merges; stop early
when no small polygons remain or no merge pair was produced.  The model
additionally reports how the loop ended. -/
def eliminate_small_polygons (gdf : List (Finset Cell)) (area_threshold : ℚ) :
    Nat → List (Finset Cell) × ExitStatus
  | 0 => (gdf, ExitStatus.exhausted)
  | k + 1 =>
    if (smallIndices gdf area_threshold).isEmpty then (gdf, ExitStatus.noSmall)
    else if (buildMergeMap gdf area_threshold).isEmpty then
      (gdf, ExitStatus.noMerges)
    else
      eliminate_small_polygons (apply_merges gdf (buildMergeMap gdf area_threshold))
        area_threshold k

/-- `tiered_eliminate(gdf, thresholds)` from `eliminate.py`: one
`eliminate_small_polygons` pass (with `max_iterations = 10`) per threshold
tier. -/
def tiered_eliminate (gdf : List (Finset Cell)) (thresholds : List ℚ) :
    List (Finset Cell) :=
  thresholds.foldl (fun g thr => (eliminate_small_polygons g thr 10).1) gdf

/-! ## Crop-presence filter (`vector/vectorize.py`) -/

/-- The attribute view of one polygon record used by
`filter_by_crop_presence`: `count0`, `count45` (pandas integer columns) and
the planar area. -/
structure PolyRecord where
  count0 : Int
  count45 : Int
  area : ℚ
  deriving DecidableEq, Repr

/-- `filter_by_crop_presence(gdf, min_crop_years, min_area_single_year)`:
keep a record iff `(count0 - count45 >= min_crop_years) or
(area >= min_area_single_year and count0 - count45 >= 1)`. -/
def filter_by_crop_presence (gdf : List PolyRecord) (min_crop_years : Int)
    (min_area_single_year : ℚ) : List PolyRecord :=
  gdf.filter (fun r =>
    min_crop_years ≤ r.count0 - r.count45 ∨
    (min_area_single_year ≤ r.area ∧ 1 ≤ r.count0 - r.count45))

/-! ## Tile orchestrator (`pipeline/tiled_create.py`) -/

/-- One tile produced by `generate_state_tiles`: row-major `(row, col)`
indices and bounds clipped to the extent (`tile_idx` is the position in the
returned list, since the counter increments once per appended tile). -/
structure Tile where
  row : Nat
  col : Nat
  bounds : ℚ × ℚ × ℚ × ℚ
  deriving DecidableEq, Repr

/-- The inner `while x < maxx` loop of `generate_state_tiles`, with fuel
bounding the number of iterations the model is willing to unfold (`none`
means the loop has not finished within `fuel` iterations). -/
def tileCols (maxx maxy tile_size step y : ℚ) (row : Nat) :
    Nat → ℚ → Nat → Option (List Tile)
  | 0, _, _ => none
  | fuel + 1, x, col =>
    if x < maxx then
      (tileCols maxx maxy tile_size step y row fuel (x + step) (col + 1)).map
        (fun rest =>
          ⟨row, col, (x, y, min (x + tile_size) maxx, min (y + tile_size) maxy)⟩
            :: rest)
    else some []

/-- The outer `while y < maxy` loop of `generate_state_tiles`. -/
def tileRows (minx maxx maxy tile_size step : ℚ) :
    Nat → ℚ → Nat → Option (List Tile)
  | 0, _, _ => none
  | fuel + 1, y, row =>
    if y < maxy then
      match tileCols maxx maxy tile_size step y row (fuel + 1) minx 0 with
      | none => none
      | some rowTiles =>
        (tileRows minx maxx maxy tile_size step fuel (y + step) (row + 1)).map
          (fun rest => rowTiles ++ rest)
    else some []

/-- `generate_state_tiles(state_bounds, tile_size_m, overlap_m)` with
`step = tile_size_m - overlap_m`, run with `fuel` loop iterations:
`some tiles` iff both while loops finish within the fuel. -/
def generate_state_tiles (fuel : Nat) (state_bounds : ℚ × ℚ × ℚ × ℚ)
    (tile_size_m overlap_m : ℚ) : Option (List Tile) :=
  tileRows state_bounds.1 state_bounds.2.2.1 state_bounds.2.2.2 tile_size_m
    (tile_size_m - overlap_m) fuel state_bounds.2.1 0

/-- `process_tile(tile, ...)` reduced to its control flow (lines 150–162 of
`tiled_create.py`): a raster read that raises is caught and yields `None`
(tile skipped); a stack with no non-background pixel (`stack.max() == 0`)
yields `None`; otherwise the downstream pipeline runs — it may itself
return `None` (no polygons), produce output, or raise (the exception
propagates to the orchestrator).  The stack is the flat list of all pixel
values of all years. -/
def process_tile (readResult : Except Unit (List Nat))
    (pipeline : List Nat → Except Unit (Option Nat)) :
    Except Unit (Option Nat) :=
  match readResult with
  | Except.error _ => Except.ok none
  | Except.ok stack =>
    if stack.foldl max 0 = 0 then Except.ok none
    else pipeline stack

/-- One tile's inputs: the outcome of its raster read and its downstream
pipeline (vectorize → filter → eliminate → simplify → save), abstracted as
a function of the stack that may raise. -/
abbrev TileSpec := Except Unit (List Nat) × (List Nat → Except Unit (Option Nat))

/-- The per-tile outcome recorded by the orchestrator loop of
`create_csb_tiled`: any exception from `process_tile` is caught and
recorded as `None` (`tile_outputs.append(None)`). -/
def tileOutcome (t : TileSpec) : Option Nat :=
  match process_tile t.1 t.2 with
  | Except.error _ => none
  | Except.ok v => v

/-- `create_csb_tiled(...)` reduced to its tile-loop and merge control flow
(lines 373–409): process every tile with per-tile exception isolation,
count the successful ones, keep only the non-`None` outputs for the merge,
and raise `ValueError("No tiles produced output")` when every tile was
skipped.  The result pairs the merge input (the surviving tile outputs)
with the successful-tile count. -/
def create_csb_tiled (tiles : List TileSpec) :
    Except String (List Nat × Nat) :=
  let tile_outputs := tiles.map tileOutcome
  let successful := (tile_outputs.filter Option.isSome).length
  let valid_outputs := tile_outputs.filterMap id
  if valid_outputs.isEmpty then Except.error "No tiles produced output"
  else Except.ok (valid_outputs, successful)

/-! ## C6: crop-presence filter -/

/-- **C6, counterexample**: with `min_crop_years = 0` the claimed
"in particular" clause fails — a record with `count0 - count45 = 0` and
large area is kept, not dropped. -/
theorem C6_crop_presence_counterexample :
    (⟨0, 0, 15000⟩ : PolyRecord).count0 - (⟨0, 0, 15000⟩ : PolyRecord).count45 ≤ 0 ∧
    filter_by_crop_presence [⟨0, 0, 15000⟩] 0 10000 = [⟨0, 0, 15000⟩] := by
  constructor
  · decide
  · decide

/-- **C6 (amended)**: the filter keeps a record iff
`(count0 - count45) ≥ min_crop_years` or
`(area ≥ min_area_single_year and count0 - count45 ≥ 1)`; and whenever
`min_crop_years ≥ 1`, a record with `count0 - count45 ≤ 0` is dropped even
if its area is large. -/
theorem C6_crop_presence_filter (gdf : List PolyRecord) (min_crop_years : Int)
    (min_area_single_year : ℚ) (r : PolyRecord) :
    (r ∈ filter_by_crop_presence gdf min_crop_years min_area_single_year ↔
      r ∈ gdf ∧ (min_crop_years ≤ r.count0 - r.count45 ∨
        (min_area_single_year ≤ r.area ∧ 1 ≤ r.count0 - r.count45))) ∧
    (1 ≤ min_crop_years → r.count0 - r.count45 ≤ 0 →
      r ∉ filter_by_crop_presence gdf min_crop_years min_area_single_year) := by
  constructor
  · simp [filter_by_crop_presence, List.mem_filter]
  · intro h1 h2 hmem
    simp only [filter_by_crop_presence, List.mem_filter, decide_eq_true_eq] at hmem
    rcases hmem.2 with h | h
    · omega
    · omega

/-- Concrete instance of `C6_crop_presence_filter`: a net-zero record is
dropped under the default `min_crop_years = 2` despite area 15000. -/
theorem C6_crop_presence_filter_witness :
    (⟨0, 0, 15000⟩ : PolyRecord) ∉ filter_by_crop_presence [⟨0, 0, 15000⟩] 2 10000 :=
  (C6_crop_presence_filter [⟨0, 0, 15000⟩] 2 10000 ⟨0, 0, 15000⟩).2
    (by decide) (by decide)

/-! ## C8: tile geometry at the representative extent -/

/-- **C8**: for extent `(0,0,200,200)`, `tile_size = 100`, `overlap = 10`
(step 90), tiling terminates and produces exactly nine row-major tiles:
the four unclipped interior tiles named in the spec plus the five
remainder tiles clipped at the 200 boundary. -/
theorem C8_tile_geometry :
    generate_state_tiles 10 (0, 0, 200, 200) 100 10 =
      some [⟨0, 0, (0, 0, 100, 100)⟩, ⟨0, 1, (90, 0, 190, 100)⟩,
            ⟨0, 2, (180, 0, 200, 100)⟩,
            ⟨1, 0, (0, 90, 100, 190)⟩, ⟨1, 1, (90, 90, 190, 190)⟩,
            ⟨1, 2, (180, 90, 200, 190)⟩,
            ⟨2, 0, (0, 180, 100, 200)⟩, ⟨2, 1, (90, 180, 190, 200)⟩,
            ⟨2, 2, (180, 180, 200, 200)⟩] := by
  norm_num [generate_state_tiles, tileRows, tileCols, min_def]

/-! ## C9: termination of tile generation -/

theorem tileCols_none (maxx maxy ts step y : ℚ) (row : Nat) (hstep : step ≤ 0) :
    ∀ (fuel : Nat) (x : ℚ) (col : Nat), x < maxx →
      tileCols maxx maxy ts step y row fuel x col = none := by
  intro fuel
  induction fuel with
  | zero => intro x col hx; rfl
  | succ f ih =>
    intro x col hx
    simp only [tileCols, if_pos hx]
    rw [ih (x + step) (col + 1) (by linarith)]
    rfl

theorem tileRows_none (minx maxx maxy ts step : ℚ) (hstep : step ≤ 0)
    (hx : minx < maxx) :
    ∀ (fuel : Nat) (y : ℚ) (row : Nat), y < maxy →
      tileRows minx maxx maxy ts step fuel y row = none := by
  intro fuel
  induction fuel with
  | zero => intro y row hy; rfl
  | succ f ih =>
    intro y row hy
    simp only [tileRows, if_pos hy,
      tileCols_none maxx maxy ts step y row hstep (f + 1) minx 0 hx]

theorem tileCols_some (maxx maxy ts step y : ℚ) (row : Nat) (hstep : 0 < step) :
    ∀ (k : Nat) (x : ℚ) (col fuel : Nat), maxx - x ≤ (k : ℚ) * step → k < fuel →
      ∃ tiles, tileCols maxx maxy ts step y row fuel x col = some tiles := by
  intro k
  induction k with
  | zero =>
    intro x col fuel hb hf
    obtain ⟨f, rfl⟩ : ∃ f, fuel = f + 1 := ⟨fuel - 1, by omega⟩
    have hxe : ¬x < maxx := by
      simp only [Nat.cast_zero, zero_mul] at hb
      intro hlt
      linarith
    exact ⟨[], by simp [tileCols, hxe]⟩
  | succ k ih =>
    intro x col fuel hb hf
    obtain ⟨f, rfl⟩ : ∃ f, fuel = f + 1 := ⟨fuel - 1, by omega⟩
    by_cases hxlt : x < maxx
    · have hb' : maxx - (x + step) ≤ (k : ℚ) * step := by
        push_cast at hb
        linarith
      obtain ⟨ts', hts'⟩ := ih (x + step) (col + 1) f hb' (by omega)
      exact ⟨⟨row, col, (x, y, min (x + ts) maxx, min (y + ts) maxy)⟩ :: ts',
        by simp [tileCols, hxlt, hts']⟩
    · exact ⟨[], by simp [tileCols, hxlt]⟩

theorem tileRows_some (minx maxx maxy ts step : ℚ) (hstep : 0 < step)
    (kX : Nat) (hkX : maxx - minx ≤ (kX : ℚ) * step) :
    ∀ (kY : Nat) (y : ℚ) (row fuel : Nat), maxy - y ≤ (kY : ℚ) * step →
      kY + kX < fuel →
      ∃ tiles, tileRows minx maxx maxy ts step fuel y row = some tiles := by
  intro kY
  induction kY with
  | zero =>
    intro y row fuel hb hf
    obtain ⟨f, rfl⟩ : ∃ f, fuel = f + 1 := ⟨fuel - 1, by omega⟩
    have hye : ¬y < maxy := by
      simp only [Nat.cast_zero, zero_mul] at hb
      intro hlt
      linarith
    exact ⟨[], by simp [tileRows, hye]⟩
  | succ kY ih =>
    intro y row fuel hb hf
    obtain ⟨f, rfl⟩ : ∃ f, fuel = f + 1 := ⟨fuel - 1, by omega⟩
    by_cases hylt : y < maxy
    · obtain ⟨rowTiles, hrow⟩ :=
        tileCols_some maxx maxy ts step y row hstep kX minx 0 (f + 1) hkX
          (by omega)
      have hb' : maxy - (y + step) ≤ (kY : ℚ) * step := by
        push_cast at hb
        linarith
      obtain ⟨rest, hrest⟩ := ih (y + step) (row + 1) f hb' (by omega)
      exact ⟨rowTiles ++ rest, by simp [tileRows, hylt, hrow, hrest]⟩
    · exact ⟨[], by simp [tileRows, hylt]⟩

/-- **C9**: on a non-degenerate extent, `generate_state_tiles` terminates
(some fuel completes both while loops) precisely when
`tile_size_m > overlap_m`; when `overlap_m ≥ tile_size_m` (step ≤ 0) the
loops never reach their bounds and no amount of fuel finishes. -/
theorem C9_generate_state_tiles_termination
    (minx miny maxx maxy tile_size_m overlap_m : ℚ)
    (hx : minx < maxx) (hy : miny < maxy) :
    (0 < tile_size_m - overlap_m →
      ∃ fuel tiles, generate_state_tiles fuel (minx, miny, maxx, maxy)
        tile_size_m overlap_m = some tiles) ∧
    (tile_size_m - overlap_m ≤ 0 →
      ∀ fuel, generate_state_tiles fuel (minx, miny, maxx, maxy)
        tile_size_m overlap_m = none) := by
  constructor
  · intro hstep
    have hkX : maxx - minx ≤ ((⌈(maxx - minx) / (tile_size_m - overlap_m)⌉₊ : ℚ)) *
        (tile_size_m - overlap_m) := by
      have h1 : (maxx - minx) / (tile_size_m - overlap_m) ≤
          (⌈(maxx - minx) / (tile_size_m - overlap_m)⌉₊ : ℚ) := Nat.le_ceil _
      calc maxx - minx
          = (maxx - minx) / (tile_size_m - overlap_m) * (tile_size_m - overlap_m) := by
            field_simp
      _ ≤ _ := mul_le_mul_of_nonneg_right h1 (le_of_lt hstep)
    have hkY : maxy - miny ≤ ((⌈(maxy - miny) / (tile_size_m - overlap_m)⌉₊ : ℚ)) *
        (tile_size_m - overlap_m) := by
      have h1 : (maxy - miny) / (tile_size_m - overlap_m) ≤
          (⌈(maxy - miny) / (tile_size_m - overlap_m)⌉₊ : ℚ) := Nat.le_ceil _
      calc maxy - miny
          = (maxy - miny) / (tile_size_m - overlap_m) * (tile_size_m - overlap_m) := by
            field_simp
      _ ≤ _ := mul_le_mul_of_nonneg_right h1 (le_of_lt hstep)
    obtain ⟨tiles, htiles⟩ := tileRows_some minx maxx maxy tile_size_m
      (tile_size_m - overlap_m) hstep _ hkX _ miny 0
      (⌈(maxy - miny) / (tile_size_m - overlap_m)⌉₊ +
        ⌈(maxx - minx) / (tile_size_m - overlap_m)⌉₊ + 1) hkY (by omega)
    exact ⟨_, tiles, htiles⟩
  · intro hstep fuel
    exact tileRows_none minx maxx maxy tile_size_m (tile_size_m - overlap_m)
      hstep hx fuel miny 0 hy

/-- Concrete instance of `C9_generate_state_tiles_termination` at the
extent of C8. -/
theorem C9_generate_state_tiles_termination_witness :
    (0 < (100 : ℚ) - 10 →
      ∃ fuel tiles, generate_state_tiles fuel ((0 : ℚ), (0 : ℚ), (200 : ℚ), (200 : ℚ))
        100 10 = some tiles) ∧
    ((100 : ℚ) - 10 ≤ 0 →
      ∀ fuel, generate_state_tiles fuel ((0 : ℚ), (0 : ℚ), (200 : ℚ), (200 : ℚ))
        100 10 = none) :=
  C9_generate_state_tiles_termination 0 0 200 200 100 10 (by norm_num) (by norm_num)

/-! ## C7: per-tile isolation in the orchestrator -/

theorem filter_length_split {α : Type} (p : α → Bool) (l : List α) :
    (l.filter p).length + (l.filter (fun a => !p a)).length = l.length := by
  induction l with
  | nil => rfl
  | cons a l ih =>
    cases h : p a <;> simp [List.filter_cons, h, ← ih] <;> omega

/-- **C7, counterexample**: a run in which every tile is skipped does
abort — `create_csb_tiled` raises `ValueError("No tiles produced output")`
— contradicting "the overall run … never aborts". -/
theorem C7_counterexample :
    create_csb_tiled [(Except.error (), fun _ => Except.ok none)] =
      Except.error "No tiles produced output" := rfl

/-- **C7 (amended)**: tiles whose read raises, whose stack is entirely
zero, or whose pipeline raises are recorded as skipped (`None`) and the
merge input contains exactly the surviving outputs; the run reports the
successful count (skipped = total − successful) and completes without
aborting provided at least one tile produced output (a run in which every
tile is skipped raises instead). -/
theorem C7_tile_isolation (tiles : List TileSpec)
    (h : ∃ t ∈ tiles, tileOutcome t ≠ none) :
    create_csb_tiled tiles =
      Except.ok ((tiles.map tileOutcome).filterMap id,
        ((tiles.map tileOutcome).filter Option.isSome).length) ∧
    ((tiles.map tileOutcome).filter Option.isSome).length +
      ((tiles.map tileOutcome).filter (fun o => !o.isSome)).length =
      tiles.length ∧
    (∀ t ∈ tiles, ∀ e, t.1 = Except.error e → tileOutcome t = none) ∧
    (∀ t ∈ tiles, ∀ stack, t.1 = Except.ok stack → stack.foldl max 0 = 0 →
      tileOutcome t = none) ∧
    (∀ t ∈ tiles, ∀ stack e, t.1 = Except.ok stack →
      t.2 stack = Except.error e → tileOutcome t = none) ∧
    (∀ o ∈ (tiles.map tileOutcome).filterMap id, ∃ t ∈ tiles, tileOutcome t = some o) := by
  refine ⟨?_, ?_, ?_, ?_, ?_, ?_⟩
  · have hne : ((tiles.map tileOutcome).filterMap id).isEmpty = false := by
      obtain ⟨t, ht, hv⟩ := h
      obtain ⟨v, hv'⟩ := Option.ne_none_iff_exists'.mp hv
      have : v ∈ (tiles.map tileOutcome).filterMap id :=
        List.mem_filterMap.mpr ⟨some v, by
          exact List.mem_map.mpr ⟨t, ht, hv'⟩, rfl⟩
      rcases hmm : (tiles.map tileOutcome).filterMap id with _ | _
      · rw [hmm] at this; simp at this
      · rfl
    simp only [create_csb_tiled, hne, Bool.false_eq_true, if_false]
  · rw [filter_length_split]
    simp
  · intro t ht e he
    simp [tileOutcome, process_tile, he]
  · intro t ht stack hs hmax
    simp [tileOutcome, process_tile, hs, hmax]
  · intro t ht stack e hs hpipe
    by_cases hmax : stack.foldl max 0 = 0
    · simp [tileOutcome, process_tile, hs, hmax]
    · simp [tileOutcome, process_tile, hs, hmax, hpipe]
  · intro o ho
    obtain ⟨a, ha, hao⟩ := List.mem_filterMap.mp ho
    obtain ⟨t, ht, hta⟩ := List.mem_map.mp ha
    exact ⟨t, ht, hta.trans hao⟩

/-- Concrete instance of `C7_tile_isolation`: one succeeding and one
read-failing tile. -/
theorem C7_tile_isolation_witness :
    create_csb_tiled
        [(Except.ok [5], fun _ => Except.ok (some 7)),
         (Except.error (), fun _ => Except.ok none)] =
      Except.ok
        (([(Except.ok [5], fun _ => Except.ok (some 7)),
           ((Except.error () : Except Unit (List Nat)),
             fun _ => Except.ok none)].map tileOutcome).filterMap id,
         (([(Except.ok [5], fun _ => Except.ok (some 7)),
            ((Except.error () : Except Unit (List Nat)),
              fun _ => Except.ok none)].map tileOutcome).filter
           Option.isSome).length) :=
  (C7_tile_isolation
    [(Except.ok [5], fun _ => Except.ok (some 7)),
     (Except.error (), fun _ => Except.ok none)]
    ⟨(Except.ok [5], fun _ => Except.ok (some 7)),
      List.mem_cons_self _ _, by decide⟩).1

/-! ## C4: post-tier guarantee -/

theorem mem_iff_getD {α : Type} (d : α) :
    ∀ (l : List α) (a : α), a ∈ l → ∃ i, i < l.length ∧ l.getD i d = a := by
  intro l
  induction l with
  | nil => intro a ha; simp at ha
  | cons x xs ih =>
    intro a ha
    rcases List.mem_cons.mp ha with rfl | h
    · exact ⟨0, by simp, rfl⟩
    · obtain ⟨i, hi, hgd⟩ := ih a h
      exact ⟨i + 1, by simpa using hi, by simpa using hgd⟩

theorem smallIndices_empty {gdf : List (Finset Cell)} {thr : ℚ}
    (h : (smallIndices gdf thr).isEmpty = true) :
    ∀ g ∈ gdf, thr < area g := by
  intro g hg
  obtain ⟨i, hi, hgd⟩ := mem_iff_getD ∅ gdf g hg
  rw [List.isEmpty_iff] at h
  have h2 := List.filter_eq_nil_iff.mp h i (List.mem_range.mpr hi)
  rw [hgd] at h2
  simpa using h2

/-- **C4, counterexample**: a single isolated small polygon is never
merged, so the tier aborts early (`noMerges`, iteration budget not
exhausted, no non-convergence situation) while a polygon with area at or
below the threshold survives — the claimed post-tier guarantee fails. -/
theorem C4_post_tier_counterexample :
    (eliminate_small_polygons [{((0 : ℤ), (0 : ℤ))}] 1 10).2 ≠
      ExitStatus.exhausted ∧
    ∃ g ∈ (eliminate_small_polygons [{((0 : ℤ), (0 : ℤ))}] 1 10).1,
      area g ≤ 1 := by
  constructor
  · decide
  · exact ⟨{(0, 0)}, by decide, by decide⟩

/-- **C4 (amended)**: if the elimination tier completes because no small
polygon remains (exit `noSmall`), then every surviving polygon's area
strictly exceeds the tier's threshold.  (A tier that exits early because no
merge pair was produced may keep small polygons even though
`max_iterations` was not exhausted.) -/
theorem C4_post_tier_guarantee :
    ∀ (iters : Nat) (gdf : List (Finset Cell)) (thr : ℚ),
    (eliminate_small_polygons gdf thr iters).2 = ExitStatus.noSmall →
    ∀ g ∈ (eliminate_small_polygons gdf thr iters).1, thr < area g := by
  intro iters
  induction iters with
  | zero =>
    intro gdf thr h
    simp [eliminate_small_polygons] at h
  | succ k ih =>
    intro gdf thr h g hg
    cases h1 : (smallIndices gdf thr).isEmpty with
    | true =>
      simp only [eliminate_small_polygons, h1, if_true] at hg
      exact smallIndices_empty h1 g hg
    | false =>
      cases h2 : (buildMergeMap gdf thr).isEmpty with
      | true =>
        simp [eliminate_small_polygons, h1, h2] at h
      | false =>
        simp only [eliminate_small_polygons, h1, h2, Bool.false_eq_true,
          if_false] at h hg
        exact ih _ thr h g hg

/-- Concrete instance of `C4_post_tier_guarantee`: threshold 0, one
polygon of area 1, tier exits with `noSmall`. -/
theorem C4_post_tier_guarantee_witness :
    (0 : ℚ) < area {((0 : ℤ), (0 : ℤ))} :=
  C4_post_tier_guarantee 10 [{((0 : ℤ), (0 : ℤ))}] 0 (by decide)
    {((0 : ℤ), (0 : ℤ))} (by decide)

/-! ## C5: merge-target choice -/

/-- Invariant of the best-neighbor scan: after processing `processed`,
either no non-skipped candidate had positive shared length (`none`), or the
best is the first non-skipped candidate attaining the maximal positive
shared length. -/
def GoodState (skip : Nat → Bool) (len : Nat → ℚ) (processed : List Nat)
    (st : Option Nat × ℚ) : Prop :=
  (st.1 = none → st.2 = 0 ∧ ∀ i ∈ processed, skip i = false → len i = 0) ∧
  (∀ j, st.1 = some j → j ∈ processed ∧ skip j = false ∧ len j = st.2 ∧
    0 < st.2 ∧ ∀ i ∈ processed, skip i = false → i ≠ j →
      (len i < st.2 ∨ (len i = st.2 ∧ j < i)))

theorem goodState_skipped {skip : Nat → Bool} {len : Nat → ℚ}
    {processed : List Nat} {st : Option Nat × ℚ} {c : Nat}
    (hskip : skip c = true) (hst : GoodState skip len processed st) :
    GoodState skip len (processed ++ [c]) st := by
  obtain ⟨hn, hs⟩ := hst
  constructor
  · intro h0
    obtain ⟨hz, hall⟩ := hn h0
    refine ⟨hz, ?_⟩
    intro i hi hsk
    rcases List.mem_append.mp hi with h | h
    · exact hall i h hsk
    · simp only [List.mem_singleton] at h
      rw [h, hskip] at hsk
      exact absurd hsk (by simp)
  · intro j hj
    obtain ⟨hjm, hjsk, hjlen, hpos, hall⟩ := hs j hj
    refine ⟨List.mem_append.mpr (Or.inl hjm), hjsk, hjlen, hpos, ?_⟩
    intro i hi hsk hne
    rcases List.mem_append.mp hi with h | h
    · exact hall i h hsk hne
    · simp only [List.mem_singleton] at h
      rw [h, hskip] at hsk
      exact absurd hsk (by simp)

theorem goodState_update {skip : Nat → Bool} {len : Nat → ℚ}
    {processed : List Nat} {st : Option Nat × ℚ} {c : Nat}
    (hskip : skip c = false) (hlt : st.2 < len c)
    (hst : GoodState skip len processed st) :
    GoodState skip len (processed ++ [c]) (some c, len c) := by
  obtain ⟨hn, hs⟩ := hst
  have hpos : 0 < len c := by
    cases hj : st.1 with
    | none => obtain ⟨hz, _⟩ := hn hj; rw [hz] at hlt; exact hlt
    | some j => obtain ⟨_, _, _, hpos0, _⟩ := hs j hj; exact lt_trans hpos0 hlt
  constructor
  · intro h0
    exact absurd h0 (by simp)
  · intro j hj
    obtain rfl : c = j := by simpa using hj
    refine ⟨List.mem_append.mpr (Or.inr (by simp)), hskip, rfl, hpos, ?_⟩
    intro i hi hsk hne
    rcases List.mem_append.mp hi with h | h
    · left
      cases hj0 : st.1 with
      | none =>
        obtain ⟨hz, hall⟩ := hn hj0
        rw [hall i h hsk, ← hz]
        exact hlt
      | some j0 =>
        obtain ⟨_, _, hjlen, _, hall⟩ := hs j0 hj0
        by_cases hij : i = j0
        · rw [hij, hjlen]; exact hlt
        · rcases hall i h hsk hij with h2 | h2
          · exact lt_trans h2 hlt
          · rw [h2.1]; exact hlt
    · simp only [List.mem_singleton] at h
      exact absurd h hne
  
theorem goodState_kept {skip : Nat → Bool} {len : Nat → ℚ}
    {processed : List Nat} {st : Option Nat × ℚ} {c : Nat}
    (hlen : ∀ i, 0 ≤ len i) (hskip : skip c = false) (hlt : ¬st.2 < len c)
    (hord : ∀ a ∈ processed, a < c)
    (hst : GoodState skip len processed st) :
    GoodState skip len (processed ++ [c]) st := by
  obtain ⟨hn, hs⟩ := hst
  constructor
  · intro h0
    obtain ⟨hz, hall⟩ := hn h0
    refine ⟨hz, ?_⟩
    intro i hi hsk
    rcases List.mem_append.mp hi with h | h
    · exact hall i h hsk
    · simp only [List.mem_singleton] at h
      rw [h]
      have h1 : len c ≤ st.2 := not_lt.mp hlt
      rw [hz] at h1
      exact le_antisymm h1 (hlen c)
  · intro j hj
    obtain ⟨hjm, hjsk, hjlen, hpos, hall⟩ := hs j hj
    refine ⟨List.mem_append.mpr (Or.inl hjm), hjsk, hjlen, hpos, ?_⟩
    intro i hi hsk hne
    rcases List.mem_append.mp hi with h | h
    · exact hall i h hsk hne
    · simp only [List.mem_singleton] at h
      rw [h]
      rcases lt_or_eq_of_le (not_lt.mp hlt) with h2 | h2
      · exact Or.inl h2
      · exact Or.inr ⟨h2, hord j hjm⟩

theorem bestFold_spec (skip : Nat → Bool) (len : Nat → ℚ)
    (hlen : ∀ i, 0 ≤ len i) :
    ∀ (cands processed : List Nat) (st : Option Nat × ℚ),
    (∀ a ∈ processed, ∀ b ∈ cands, a < b) → cands.Pairwise (· < ·) →
    GoodState skip len processed st →
    GoodState skip len (processed ++ cands)
      (cands.foldl (bestStep skip len) st) := by
  intro cands
  induction cands with
  | nil =>
    intro processed st _ _ hst
    simpa using hst
  | cons c rest ih =>
    intro processed st hord hsort hst
    rw [List.foldl_cons]
    have hstep : GoodState skip len (processed ++ [c]) (bestStep skip len st c) := by
      cases hskip : skip c with
      | true =>
        simpa only [bestStep, hskip, if_true] using goodState_skipped hskip hst
      | false =>
        by_cases hlt : st.2 < len c
        · simpa only [bestStep, hskip, Bool.false_eq_true, if_false, if_pos hlt]
            using goodState_update hskip hlt hst
        · simpa only [bestStep, hskip, Bool.false_eq_true, if_false, if_neg hlt]
            using goodState_kept hlen hskip hlt
              (fun a ha => hord a ha c (by simp)) hst
    have hord2 : ∀ a ∈ processed ++ [c], ∀ b ∈ rest, a < b := by
      intro a ha b hb
      rcases List.mem_append.mp ha with h | h
      · exact hord a h b (List.mem_cons.mpr (Or.inr hb))
      · simp only [List.mem_singleton] at h
        rw [h]
        exact (List.pairwise_cons.mp hsort).1 b hb
    have hres := ih (processed ++ [c]) (bestStep skip len st c) hord2
      (List.pairwise_cons.mp hsort).2 hstep
    simpa [List.append_assoc] using hres

theorem sindexQuery_sorted (small_geom : Finset Cell) (gdf : List (Finset Cell)) :
    (sindexQuery small_geom gdf).Pairwise (· < ·) :=
  List.Pairwise.sublist (List.filter_sublist _) (List.pairwise_lt_range _)

theorem treeQuery_sorted (small_geom : Finset Cell) (gdf : List (Finset Cell)) :
    (treeQueryIntersects small_geom gdf).Pairwise (· < ·) :=
  List.Pairwise.sublist (List.filter_sublist _) (List.pairwise_lt_range _)

theorem sharedBoundaryLength_nonneg (p q : Finset Cell) :
    0 ≤ sharedBoundaryLength p q := by
  unfold sharedBoundaryLength
  positivity

/-- **C5**: in both `eliminate.py` and `eliminate_fast.py`, the merge
target chosen for a small polygon is the first candidate (in the fixed
candidate order) of strictly greatest shared-boundary length among the
candidates that are not the polygon itself, not small themselves, and that
intersect it (in `eliminate_fast.py` the intersection test is the tree
query's predicate); when no such candidate has strictly positive shared
length, no target is chosen. -/
theorem C5_merge_target_choice (small_geom : Finset Cell)
    (gdf : List (Finset Cell)) (small_idx : Nat) (thr : ℚ) :
    ((find_longest_shared_boundary_neighbor small_geom gdf small_idx thr = none →
      ∀ i ∈ sindexQuery small_geom gdf, i ≠ small_idx →
        thr < area (gdf.getD i ∅) →
        cellsIntersect small_geom (gdf.getD i ∅) = true →
        sharedBoundaryLength small_geom (gdf.getD i ∅) = 0) ∧
     (∀ j, find_longest_shared_boundary_neighbor small_geom gdf small_idx thr =
        some j →
      j ∈ sindexQuery small_geom gdf ∧ j ≠ small_idx ∧
      thr < area (gdf.getD j ∅) ∧
      cellsIntersect small_geom (gdf.getD j ∅) = true ∧
      0 < sharedBoundaryLength small_geom (gdf.getD j ∅) ∧
      ∀ i ∈ sindexQuery small_geom gdf, i ≠ small_idx →
        thr < area (gdf.getD i ∅) →
        cellsIntersect small_geom (gdf.getD i ∅) = true → i ≠ j →
        (sharedBoundaryLength small_geom (gdf.getD i ∅) <
           sharedBoundaryLength small_geom (gdf.getD j ∅) ∨
         (sharedBoundaryLength small_geom (gdf.getD i ∅) =
           sharedBoundaryLength small_geom (gdf.getD j ∅) ∧ j < i)))) ∧
    ((find_neighbor_fast small_geom gdf small_idx thr = none →
      ∀ i ∈ treeQueryIntersects small_geom gdf, i ≠ small_idx →
        thr < area (gdf.getD i ∅) →
        sharedBoundaryLength small_geom (gdf.getD i ∅) = 0) ∧
     (∀ j, find_neighbor_fast small_geom gdf small_idx thr = some j →
      j ∈ treeQueryIntersects small_geom gdf ∧ j ≠ small_idx ∧
      thr < area (gdf.getD j ∅) ∧
      0 < sharedBoundaryLength small_geom (gdf.getD j ∅) ∧
      ∀ i ∈ treeQueryIntersects small_geom gdf, i ≠ small_idx →
        thr < area (gdf.getD i ∅) → i ≠ j →
        (sharedBoundaryLength small_geom (gdf.getD i ∅) <
           sharedBoundaryLength small_geom (gdf.getD j ∅) ∨
         (sharedBoundaryLength small_geom (gdf.getD i ∅) =
           sharedBoundaryLength small_geom (gdf.getD j ∅) ∧ j < i)))) := by
  have hmainL := bestFold_spec
    (fun i => i = small_idx ∨ area (gdf.getD i ∅) ≤ thr ∨
      ¬cellsIntersect small_geom (gdf.getD i ∅))
    (fun i => sharedBoundaryLength small_geom (gdf.getD i ∅))
    (fun i => sharedBoundaryLength_nonneg _ _)
    (sindexQuery small_geom gdf) [] (none, 0) (by simp)
    (sindexQuery_sorted _ _)
    ⟨fun _ => ⟨rfl, by simp⟩, fun j hj => by simp at hj⟩
  have hmainF := bestFold_spec
    (fun i => i = small_idx ∨ area (gdf.getD i ∅) ≤ thr)
    (fun i => sharedBoundaryLength small_geom (gdf.getD i ∅))
    (fun i => sharedBoundaryLength_nonneg _ _)
    (treeQueryIntersects small_geom gdf) [] (none, 0) (by simp)
    (treeQuery_sorted _ _)
    ⟨fun _ => ⟨rfl, by simp⟩, fun j hj => by simp at hj⟩
  simp only [List.nil_append] at hmainL hmainF
  constructor
  · constructor
    · intro h0 i hi hne hbig hint
      obtain ⟨_, hall⟩ := hmainL.1 h0
      have hskF : decide (i = small_idx ∨ area (gdf.getD i ∅) ≤ thr ∨
          ¬cellsIntersect small_geom (gdf.getD i ∅) = true) = false := by
        simp only [decide_eq_false_iff_not, not_or, not_le, not_not]
        exact ⟨hne, hbig, hint⟩
      exact hall i hi hskF
    · intro j hj
      obtain ⟨hjm, hjsk, hjlen, hpos, hall⟩ := hmainL.2 j hj
      dsimp only at hjsk hjlen hall
      simp only [decide_eq_false_iff_not, not_or, not_le, not_not] at hjsk
      obtain ⟨hne, hbig, hint⟩ := hjsk
      refine ⟨hjm, hne, hbig, hint, by rw [hjlen]; exact hpos, ?_⟩
      intro i hi hne2 hbig2 hint2 hij
      have hskF : decide (i = small_idx ∨ area (gdf.getD i ∅) ≤ thr ∨
          ¬cellsIntersect small_geom (gdf.getD i ∅) = true) = false := by
        simp only [decide_eq_false_iff_not, not_or, not_le, not_not]
        exact ⟨hne2, hbig2, hint2⟩
      rcases hall i hi hskF hij with h2 | h2
      · left; rw [hjlen]; exact h2
      · right; exact ⟨by rw [hjlen]; exact h2.1, h2.2⟩
  · constructor
    · intro h0 i hi hne hbig
      obtain ⟨_, hall⟩ := hmainF.1 h0
      have hskF : decide (i = small_idx ∨ area (gdf.getD i ∅) ≤ thr) = false := by
        simp only [decide_eq_false_iff_not, not_or, not_le]
        exact ⟨hne, hbig⟩
      exact hall i hi hskF
    · intro j hj
      obtain ⟨hjm, hjsk, hjlen, hpos, hall⟩ := hmainF.2 j hj
      dsimp only at hjsk hjlen hall
      simp only [decide_eq_false_iff_not, not_or, not_le] at hjsk
      obtain ⟨hne, hbig⟩ := hjsk
      refine ⟨hjm, hne, hbig, by rw [hjlen]; exact hpos, ?_⟩
      intro i hi hne2 hbig2 hij
      have hskF : decide (i = small_idx ∨ area (gdf.getD i ∅) ≤ thr) = false := by
        simp only [decide_eq_false_iff_not, not_or, not_le]
        exact ⟨hne2, hbig2⟩
      rcases hall i hi hskF hij with h2 | h2
      · left; rw [hjlen]; exact h2
      · right; exact ⟨by rw [hjlen]; exact h2.1, h2.2⟩

/-- Concrete instance of `C5_merge_target_choice`: among two qualifying
neighbors of the unit square at the origin, the one sharing two unit edges
is chosen and its shared length is positive. -/
theorem C5_merge_target_choice_witness :
    0 < sharedBoundaryLength {((0 : ℤ), (0 : ℤ))}
      (([{((0 : ℤ), (0 : ℤ))}, {((1 : ℤ), (0 : ℤ)), ((0 : ℤ), (1 : ℤ))},
         {((-1 : ℤ), (0 : ℤ)), ((-2 : ℤ), (0 : ℤ))}] :
        List (Finset Cell)).getD 1 ∅) :=
  ((C5_merge_target_choice {((0 : ℤ), (0 : ℤ))}
      [{((0 : ℤ), (0 : ℤ))}, {((1 : ℤ), (0 : ℤ)), ((0 : ℤ), (1 : ℤ))},
       {((-1 : ℤ), (0 : ℤ)), ((-2 : ℤ), (0 : ℤ))}] 0 1).1.2 1
    (by decide)).2.2.2.2.1

/-! ## C3: conservation of one merge iteration -/

/-- Total covered area of a polygon set. -/
def totalArea (l : List (Finset Cell)) : ℚ := (l.map area).sum

/-- Sum of the areas of the not-yet-dropped rows. -/
def survivorSum (cur : List (Finset Cell)) (drop : Finset Nat) (n : Nat) : ℚ :=
  ∑ i ∈ Finset.range n, if i ∈ drop then 0 else area (cur.getD i ∅)

/-- All sources of all groups, in processing order. -/
def flatSrcs (G : List (Nat × List Nat)) : List Nat :=
  (G.map Prod.snd).flatten

theorem getD_set_self {α : Type} :
    ∀ (l : List α) (i : Nat), i < l.length → ∀ (a d : α),
      (l.set i a).getD i d = a := by
  intro l
  induction l with
  | nil => intro i h; simp at h
  | cons x xs ih =>
    intro i h a d
    cases i with
    | zero => rfl
    | succ i =>
      simp only [List.set_cons_succ, List.getD_cons_succ]
      exact ih i (by simpa using h) a d

theorem getD_set_ne {α : Type} :
    ∀ (l : List α) (i j : Nat), i ≠ j → ∀ (a d : α),
      (l.set i a).getD j d = l.getD j d := by
  intro l
  induction l with
  | nil => intro i j h a d; simp [List.set]
  | cons x xs ih =>
    intro i j h a d
    cases i with
    | zero =>
      cases j with
      | zero => exact absurd rfl h
      | succ j => rfl
    | succ i =>
      cases j with
      | zero => rfl
      | succ j =>
        simp only [List.set_cons_succ, List.getD_cons_succ]
        exact ih i j (by omega) a d

theorem getD_disjoint_of_pairwise {l : List (Finset Cell)}
    (h : l.Pairwise Disjoint) :
    ∀ i j, i ≠ j → Disjoint (l.getD i ∅) (l.getD j ∅) := by
  have hmem : ∀ i j, i < j → j < l.length →
      Disjoint (l.getD i ∅) (l.getD j ∅) := by
    intro i j hij hj
    have hi : i < l.length := lt_trans hij hj
    rw [List.getD_eq_getElem l ∅ hi, List.getD_eq_getElem l ∅ hj]
    exact List.pairwise_iff_getElem.mp h i j hi hj hij
  intro i j hij
  by_cases hi : i < l.length
  · by_cases hj : j < l.length
    · rcases Nat.lt_or_ge i j with h2 | h2
      · exact hmem i j h2 hj
      · exact (hmem j i (by omega) hi).symm
    · rw [List.getD_eq_default l ∅ (show l.length ≤ j by omega)]
      exact Finset.disjoint_empty_right _
  · rw [List.getD_eq_default l ∅ (show l.length ≤ i by omega)]
    exact Finset.disjoint_empty_left _

theorem disjoint_unary_union_right (g : Finset Cell) :
    ∀ (gs : List (Finset Cell)), (∀ h ∈ gs, Disjoint g h) →
      Disjoint g (unary_union gs) := by
  intro gs
  induction gs with
  | nil => intro _; simp [unary_union]
  | cons x xs ih =>
    intro hall
    simp only [unary_union, List.foldr_cons]
    rw [Finset.disjoint_union_right]
    exact ⟨hall x (by simp), ih (fun h hh => hall h (by simp [hh]))⟩

theorem area_unary_union_of_pairwise :
    ∀ (geoms : List (Finset Cell)), geoms.Pairwise Disjoint →
      area (unary_union geoms) = (geoms.map area).sum := by
  intro geoms
  induction geoms with
  | nil => intro _; simp [unary_union, area]
  | cons g gs ih =>
    intro hpw
    obtain ⟨hhead, htail⟩ := List.pairwise_cons.mp hpw
    have hdisj : Disjoint g (unary_union gs) :=
      disjoint_unary_union_right g gs hhead
    have hsum : area (g ∪ unary_union gs) = area g + area (unary_union gs) := by
      unfold area
      rw [Finset.card_union_of_disjoint hdisj]
      push_cast
      ring
    simp only [unary_union, List.foldr_cons, List.map_cons, List.sum_cons]
    rw [show g ∪ List.foldr (· ∪ ·) ∅ gs = g ∪ unary_union gs from rfl, hsum,
      ih htail]

theorem collectSrcs_of_fresh :
    ∀ (ss : List Nat) (drop : Finset Nat), (∀ s ∈ ss, s ∉ drop) → ss.Nodup →
      collectSrcs ss drop = (ss, drop ∪ ss.toFinset) := by
  intro ss
  induction ss with
  | nil => intro drop _ _; simp [collectSrcs]
  | cons s rest ih =>
    intro drop hfresh hnd
    have hs : s ∉ drop := hfresh s (by simp)
    have hrest : ∀ x ∈ rest, x ∉ insert s drop := by
      intro x hx
      rw [Finset.mem_insert]
      push_neg
      exact ⟨fun hxs => (List.nodup_cons.mp hnd).1 (hxs ▸ hx),
        hfresh x (by simp [hx])⟩
    simp only [collectSrcs, hs, if_false,
      ih (insert s drop) hrest (List.nodup_cons.mp hnd).2]
    rw [List.toFinset_cons, Finset.union_insert, Finset.insert_union]

theorem sum_range_getD_area (l : List (Finset Cell)) :
    ∑ i ∈ Finset.range l.length, area (l.getD i ∅) = totalArea l := by
  unfold totalArea
  induction l with
  | nil => simp
  | cons x xs ih =>
    rw [List.length_cons, Finset.sum_range_succ']
    simp only [List.getD_cons_succ, List.getD_cons_zero, List.map_cons,
      List.sum_cons, ih]
    ring

theorem survivorSum_empty (l : List (Finset Cell)) :
    survivorSum l ∅ l.length = totalArea l := by
  unfold survivorSum
  rw [← sum_range_getD_area]
  exact Finset.sum_congr rfl (fun i _ => by simp)

theorem final_sum (cur : List (Finset Cell)) (drop : Finset Nat) :
    totalArea (((List.range cur.length).filter (fun i => i ∉ drop)).map
      (fun i => cur.getD i ∅)) = survivorSum cur drop cur.length := by
  unfold totalArea survivorSum
  rw [List.map_map]
  induction cur.length with
  | zero => simp
  | succ n ih =>
    rw [List.range_succ, List.filter_append, List.map_append, List.sum_append,
      Finset.sum_range_succ, ih]
    by_cases h : n ∈ drop
    · simp [h]
    · simp [h, area]

theorem final_length (n : Nat) (drop : Finset Nat) (h : ∀ i ∈ drop, i < n) :
    ((List.range n).filter (fun i => i ∉ drop)).length + drop.card = n := by
  have hnd : ((List.range n).filter (fun i => decide (i ∉ drop))).Nodup :=
    (List.nodup_range n).filter _
  have hfin : ((List.range n).filter (fun i => decide (i ∉ drop))).toFinset =
      Finset.range n \ drop := by
    ext i
    simp [List.mem_filter, List.mem_range, Finset.mem_sdiff, Finset.mem_range,
      and_comm]
  have hsub : drop ⊆ Finset.range n :=
    fun i hi => Finset.mem_range.mpr (h i hi)
  have hlen := List.toFinset_card_of_nodup hnd
  rw [hfin] at hlen
  rw [← hlen, Finset.card_sdiff hsub]
  have := Finset.card_le_card hsub
  simp only [Finset.card_range] at this ⊢
  omega

theorem flatSrcs_addToGroup :
    ∀ (acc : List (Nat × List Nat)) (t s : Nat),
      List.Perm (flatSrcs (addToGroup acc t s)) (flatSrcs acc ++ [s]) := by
  intro acc
  induction acc with
  | nil => intro t s; simp [addToGroup, flatSrcs]
  | cons g rest ih =>
    intro t s
    obtain ⟨t', ss⟩ := g
    by_cases ht : t' = t
    · simp only [addToGroup, if_pos ht, flatSrcs, List.map_cons, List.flatten_cons]
      rw [List.append_assoc ss [s] _, List.append_assoc ss _ [s]]
      exact List.Perm.append_left ss List.perm_append_comm
    · simp only [addToGroup, if_neg ht, flatSrcs, List.map_cons, List.flatten_cons]
      have h1 := List.Perm.append_left ss (ih t s)
      unfold flatSrcs at h1
      refine List.Perm.trans h1 ?_
      rw [← List.append_assoc]

theorem flatSrcs_groupFold :
    ∀ (mm : List (Nat × Nat)) (acc : List (Nat × List Nat)),
      List.Perm (flatSrcs (mm.foldl (fun a st => addToGroup a st.2 st.1) acc))
        (flatSrcs acc ++ mm.map Prod.fst) := by
  intro mm
  induction mm with
  | nil => intro acc; simp
  | cons pr rest ih =>
    intro acc
    rw [List.foldl_cons]
    refine List.Perm.trans (ih _) (List.Perm.trans
      (List.Perm.append_right _ (flatSrcs_addToGroup acc pr.2 pr.1)) ?_)
    rw [List.append_assoc]
    rfl

theorem flatSrcs_groupByTarget (mm : List (Nat × Nat)) :
    List.Perm (flatSrcs (groupByTarget mm)) (mm.map Prod.fst) := by
  have := flatSrcs_groupFold mm []
  simpa [flatSrcs] using this

theorem map_fst_addToGroup :
    ∀ (acc : List (Nat × List Nat)) (t s : Nat),
      (addToGroup acc t s).map Prod.fst =
        if t ∈ acc.map Prod.fst then acc.map Prod.fst
        else acc.map Prod.fst ++ [t] := by
  intro acc
  induction acc with
  | nil => intro t s; simp [addToGroup]
  | cons g rest ih =>
    intro t s
    obtain ⟨t', ss⟩ := g
    by_cases ht : t' = t
    · simp [addToGroup, ht]
    · simp only [addToGroup, if_neg ht, List.map_cons, ih t s,
        List.mem_cons]
      have : ¬t = t' := fun h => ht h.symm
      by_cases hmem : t ∈ rest.map Prod.fst
      · simp [hmem, this]
      · simp [hmem, this]

theorem map_fst_groupFold_nodup :
    ∀ (mm : List (Nat × Nat)) (acc : List (Nat × List Nat)),
      ((acc.map Prod.fst)).Nodup →
      ((mm.foldl (fun a st => addToGroup a st.2 st.1) acc).map Prod.fst).Nodup := by
  intro mm
  induction mm with
  | nil => intro acc h; simpa using h
  | cons pr rest ih =>
    intro acc h
    rw [List.foldl_cons]
    apply ih
    rw [map_fst_addToGroup]
    by_cases hmem : pr.2 ∈ acc.map Prod.fst
    · simpa [hmem] using h
    · simp only [hmem, if_false]
      rw [List.nodup_append]
      exact ⟨h, List.nodup_singleton _, by simpa using hmem⟩

theorem groupByTarget_targets_nodup (mm : List (Nat × Nat)) :
    ((groupByTarget mm).map Prod.fst).Nodup :=
  map_fst_groupFold_nodup mm [] (by simp)

theorem mem_targets_groupFold :
    ∀ (mm : List (Nat × Nat)) (acc : List (Nat × List Nat)) (g : Nat × List Nat),
      g ∈ mm.foldl (fun a st => addToGroup a st.2 st.1) acc →
      g.1 ∈ acc.map Prod.fst ∨ g.1 ∈ mm.map Prod.snd := by
  intro mm
  induction mm with
  | nil =>
    intro acc g hg
    exact Or.inl (List.mem_map_of_mem Prod.fst hg)
  | cons pr rest ih =>
    intro acc g hg
    rw [List.foldl_cons] at hg
    rcases ih (addToGroup acc pr.2 pr.1) g hg with h | h
    · rw [map_fst_addToGroup] at h
      by_cases hmem : pr.2 ∈ acc.map Prod.fst
      · rw [if_pos hmem] at h
        exact Or.inl h
      · rw [if_neg hmem] at h
        rcases List.mem_append.mp h with h2 | h2
        · exact Or.inl h2
        · simp only [List.mem_singleton] at h2
          exact Or.inr (by simp [h2])
    · exact Or.inr (by simp [h])

theorem groupByTarget_targets_mem (mm : List (Nat × Nat)) (g : Nat × List Nat)
    (hg : g ∈ groupByTarget mm) : g.1 ∈ mm.map Prod.snd := by
  rcases mem_targets_groupFold mm [] g hg with h | h
  · simp at h
  · exact h

theorem survivorSum_merge (cur : List (Finset Cell)) (n t : Nat)
    (ss : List Nat) (drop : Finset Nat) (merged : Finset Cell)
    (hn : cur.length = n) (ht : t < n) (htdrop : t ∉ drop) (hts : t ∉ ss)
    (hss : ∀ s ∈ ss, s < n ∧ s ∉ drop) (hssnd : ss.Nodup)
    (harea : area merged =
      area (cur.getD t ∅) + (ss.map (fun s => area (cur.getD s ∅))).sum) :
    survivorSum (cur.set t merged) (drop ∪ ss.toFinset) n =
      survivorSum cur drop n := by
  unfold survivorSum
  have hpoint : ∀ i ∈ Finset.range n,
      (if i ∈ drop ∪ ss.toFinset then 0
       else area ((cur.set t merged).getD i ∅)) =
      (if i ∈ drop then 0 else area (cur.getD i ∅)) +
      (if i = t then area merged - area (cur.getD t ∅) else 0) -
      (if i ∈ ss.toFinset then area (cur.getD i ∅) else 0) := by
    intro i _
    by_cases hit : i = t
    · subst hit
      have h1 : i ∉ ss.toFinset := by simpa using hts
      have h2 : i ∉ drop ∪ ss.toFinset := by
        simp [htdrop, h1]
      rw [if_pos rfl, if_neg h2, if_neg htdrop, if_neg h1,
        getD_set_self cur i (hn ▸ ht) merged ∅]
      ring
    · rw [getD_set_ne cur t i (fun h => hit h.symm) merged ∅, if_neg hit]
      by_cases hiss : i ∈ ss.toFinset
      · have hidrop : i ∉ drop := (hss i (List.mem_toFinset.mp hiss)).2
        rw [if_pos (Finset.mem_union.mpr (Or.inr hiss)), if_neg hidrop,
          if_pos hiss]
        ring
      · rw [if_neg hiss]
        by_cases hidrop : i ∈ drop
        · rw [if_pos (Finset.mem_union.mpr (Or.inl hidrop)), if_pos hidrop]
          ring
        · rw [if_neg (by simp [hidrop, hiss]), if_neg hidrop]
          ring
  rw [Finset.sum_congr rfl hpoint, Finset.sum_sub_distrib,
    Finset.sum_add_distrib, Finset.sum_ite_eq' (Finset.range n) t,
    if_pos (Finset.mem_range.mpr ht), Finset.sum_ite_mem,
    Finset.inter_eq_right.mpr
      (fun s hs => Finset.mem_range.mpr (hss s (List.mem_toFinset.mp hs)).1),
    List.sum_toFinset _ hssnd, harea]
  ring

theorem mem_flatSrcs {G : List (Nat × List Nat)} {g : Nat × List Nat} {s : Nat}
    (hg : g ∈ G) (hs : s ∈ g.2) : s ∈ flatSrcs G :=
  List.mem_flatten.mpr ⟨g.2, List.mem_map_of_mem Prod.snd hg, hs⟩

/-- Main invariant of the group-application fold of `apply_merges`: under
the engine's structural conditions (fresh sources/targets, disjoint
geometries, single-part unions), the fold preserves the row count, drops
exactly the processed sources, and conserves the surviving total area. -/
theorem applyGroups_spec (gdf : List (Finset Cell))
    (hdisjoint : ∀ i j, i ≠ j → Disjoint (gdf.getD i ∅) (gdf.getD j ∅)) :
    ∀ (G : List (Nat × List Nat)) (cur : List (Finset Cell)) (drop : Finset Nat),
    cur.length = gdf.length →
    (∀ g ∈ G, g.1 < gdf.length ∧ ∀ s ∈ g.2, s < gdf.length) →
    (∀ g ∈ G, g.1 ∉ drop ∧ ∀ s ∈ g.2, s ∉ drop) →
    (∀ g ∈ G, cur.getD g.1 ∅ = gdf.getD g.1 ∅ ∧
      ∀ s ∈ g.2, cur.getD s ∅ = gdf.getD s ∅) →
    (flatSrcs G).Nodup →
    (G.map Prod.fst).Nodup →
    (∀ g ∈ G, g.1 ∉ flatSrcs G) →
    (∀ g ∈ G, isMultiPart (unary_union (gdf.getD g.1 ∅ ::
      g.2.map (fun s => gdf.getD s ∅))) = false) →
    (G.foldl applyGroup (cur, drop)).1.length = cur.length ∧
    (G.foldl applyGroup (cur, drop)).2 = drop ∪ (flatSrcs G).toFinset ∧
    survivorSum (G.foldl applyGroup (cur, drop)).1
      (G.foldl applyGroup (cur, drop)).2 gdf.length =
      survivorSum cur drop gdf.length := by
  intro G
  induction G with
  | nil =>
    intro cur drop _ _ _ _ _ _ _ _
    refine ⟨rfl, ?_, rfl⟩
    simp [flatSrcs]
  | cons g G' ih =>
    intro cur drop hlen hbounds hdrops huntouched hndS hndT htns hsingle
    obtain ⟨t, ss⟩ := g
    have hflat : flatSrcs ((t, ss) :: G') = ss ++ flatSrcs G' := by
      simp [flatSrcs]
    rw [hflat] at hndS htns
    obtain ⟨hssnd, hndS2, hdisjS⟩ := List.nodup_append.mp hndS
    have htdrop : t ∉ drop := (hdrops (t, ss) (by simp)).1
    have hssdrop : ∀ s ∈ ss, s ∉ drop := (hdrops (t, ss) (by simp)).2
    have htnsG : t ∉ ss ++ flatSrcs G' := htns (t, ss) (by simp)
    have htss : t ∉ ss := fun h => htnsG (List.mem_append.mpr (Or.inl h))
    have htF2 : t ∉ flatSrcs G' := fun h => htnsG (List.mem_append.mpr (Or.inr h))
    have ht : t < gdf.length := (hbounds (t, ss) (by simp)).1
    have hssb : ∀ s ∈ ss, s < gdf.length := (hbounds (t, ss) (by simp)).2
    have hcurT : cur.getD t ∅ = gdf.getD t ∅ := (huntouched (t, ss) (by simp)).1
    have hcurS : ∀ s ∈ ss, cur.getD s ∅ = gdf.getD s ∅ :=
      (huntouched (t, ss) (by simp)).2
    have hcollect : collectSrcs ss drop = (ss, drop ∪ ss.toFinset) :=
      collectSrcs_of_fresh ss drop hssdrop hssnd
    have hgeoms : cur.getD t ∅ :: ss.map (fun s => cur.getD s ∅) =
        gdf.getD t ∅ :: ss.map (fun s => gdf.getD s ∅) := by
      rw [hcurT]
      congr 1
      exact List.map_congr_left hcurS
    have hsing : isMultiPart (unary_union (gdf.getD t ∅ ::
        ss.map (fun s => gdf.getD s ∅))) = false := hsingle (t, ss) (by simp)
    have hstep : applyGroup (cur, drop) (t, ss) =
        (cur.set t (unary_union (gdf.getD t ∅ ::
          ss.map (fun s => gdf.getD s ∅))), drop ∪ ss.toFinset) := by
      unfold applyGroup
      dsimp only
      rw [if_neg htdrop, hcollect]
      dsimp only
      rw [hgeoms]
      simp only [hsing, Bool.false_eq_true, if_false]
    have htnotG2 : t ∉ G'.map Prod.fst := by
      have : (t :: G'.map Prod.fst).Nodup := by simpa using hndT
      exact (List.nodup_cons.mp this).1
    have hlen2 : (cur.set t (unary_union (gdf.getD t ∅ ::
        ss.map (fun s => gdf.getD s ∅)))).length = gdf.length := by
      rw [List.length_set]
      exact hlen
    have hbounds2 : ∀ g ∈ G', g.1 < gdf.length ∧ ∀ s ∈ g.2, s < gdf.length :=
      fun g hg => hbounds g (List.mem_cons.mpr (Or.inr hg))
    have hdrops2 : ∀ g ∈ G', g.1 ∉ drop ∪ ss.toFinset ∧
        ∀ s ∈ g.2, s ∉ drop ∪ ss.toFinset := by
      intro g hg
      have h1 := hdrops g (List.mem_cons.mpr (Or.inr hg))
      have htg : g.1 ∉ ss ++ flatSrcs G' := htns g (List.mem_cons.mpr (Or.inr hg))
      constructor
      · rw [Finset.mem_union]
        push_neg
        exact ⟨h1.1, by
          rw [List.mem_toFinset]
          exact fun h => htg (List.mem_append.mpr (Or.inl h))⟩
      · intro s hs
        rw [Finset.mem_union]
        push_neg
        refine ⟨h1.2 s hs, ?_⟩
        rw [List.mem_toFinset]
        intro hsss
        exact hdisjS hsss (mem_flatSrcs hg hs)
    have huntouched2 : ∀ g ∈ G',
        (cur.set t (unary_union (gdf.getD t ∅ ::
          ss.map (fun s => gdf.getD s ∅)))).getD g.1 ∅ = gdf.getD g.1 ∅ ∧
        ∀ s ∈ g.2, (cur.set t (unary_union (gdf.getD t ∅ ::
          ss.map (fun s => gdf.getD s ∅)))).getD s ∅ = gdf.getD s ∅ := by
      intro g hg
      have h1 := huntouched g (List.mem_cons.mpr (Or.inr hg))
      constructor
      · rw [getD_set_ne cur t g.1
          (fun h => htnotG2 (h ▸ List.mem_map_of_mem Prod.fst hg)) _ ∅]
        exact h1.1
      · intro s hs
        rw [getD_set_ne cur t s
          (fun h => htF2 (h ▸ mem_flatSrcs hg hs)) _ ∅]
        exact h1.2 s hs
    have hndT2 : (G'.map Prod.fst).Nodup := by
      have : (t :: G'.map Prod.fst).Nodup := by simpa using hndT
      exact (List.nodup_cons.mp this).2
    have htns2 : ∀ g ∈ G', g.1 ∉ flatSrcs G' := fun g hg h =>
      htns g (List.mem_cons.mpr (Or.inr hg)) (List.mem_append.mpr (Or.inr h))
    have hsingle2 : ∀ g ∈ G', isMultiPart (unary_union (gdf.getD g.1 ∅ ::
        g.2.map (fun s => gdf.getD s ∅))) = false :=
      fun g hg => hsingle g (List.mem_cons.mpr (Or.inr hg))
    obtain ⟨ih1, ih2, ih3⟩ := ih
      (cur.set t (unary_union (gdf.getD t ∅ :: ss.map (fun s => gdf.getD s ∅))))
      (drop ∪ ss.toFinset) hlen2 hbounds2 hdrops2 huntouched2 hndS2 hndT2
      htns2 hsingle2
    have hpw : (gdf.getD t ∅ :: ss.map (fun s => gdf.getD s ∅)).Pairwise
        Disjoint := by
      have hnodts : (t :: ss).Nodup := List.nodup_cons.mpr ⟨htss, hssnd⟩
      have hp : ((t :: ss).map (fun i => gdf.getD i ∅)).Pairwise Disjoint :=
        (List.pairwise_map).mpr (hnodts.imp (fun hne => hdisjoint _ _ hne))
      simpa using hp
    have harea : area (unary_union (gdf.getD t ∅ ::
        ss.map (fun s => gdf.getD s ∅))) =
        area (cur.getD t ∅) + (ss.map (fun s => area (cur.getD s ∅))).sum := by
      rw [area_unary_union_of_pairwise _ hpw]
      simp only [List.map_cons, List.sum_cons, List.map_map]
      rw [hcurT]
      congr 1
      apply congrArg List.sum
      apply List.map_congr_left
      intro s hs
      simp only [Function.comp_apply]
      rw [hcurS s hs]
    rw [List.foldl_cons, hstep]
    refine ⟨?_, ?_, ?_⟩
    · rw [ih1, List.length_set]
    · rw [ih2, hflat, List.toFinset_append, Finset.union_assoc]
    · rw [ih3]
      exact survivorSum_merge cur gdf.length t ss drop _ hlen ht htdrop htss
        (fun s hs => ⟨hssb s hs, hssdrop s hs⟩) hssnd harea

theorem mem_smallIndices {gdf : List (Finset Cell)} {thr : ℚ} {i : Nat} :
    i ∈ smallIndices gdf thr ↔ i < gdf.length ∧ area (gdf.getD i ∅) ≤ thr := by
  simp [smallIndices, List.mem_filter, List.mem_range]

theorem smallIndices_nodup (gdf : List (Finset Cell)) (thr : ℚ) :
    (smallIndices gdf thr).Nodup :=
  (List.nodup_range _).filter _

theorem map_fst_filterMap_pairs (l : List Nat) (h : Nat → Option Nat) :
    (l.filterMap (fun i => (h i).map (fun t => (i, t)))).map Prod.fst =
      l.filter (fun i => (h i).isSome) := by
  induction l with
  | nil => rfl
  | cons x xs ih =>
    cases hx : h x with
    | none => simp [List.filterMap_cons, List.filter_cons, hx, ih]
    | some t => simp [List.filterMap_cons, List.filter_cons, hx, ih]

theorem mem_buildMergeMap {gdf : List (Finset Cell)} {thr : ℚ}
    {pr : Nat × Nat} (hpr : pr ∈ buildMergeMap gdf thr) :
    pr.1 ∈ smallIndices gdf thr ∧
    find_longest_shared_boundary_neighbor (gdf.getD pr.1 ∅) gdf pr.1 thr =
      some pr.2 := by
  obtain ⟨i, hi, hmap⟩ := List.mem_filterMap.mp hpr
  rw [Option.map_eq_some'] at hmap
  obtain ⟨t, hfind, hpair⟩ := hmap
  obtain rfl : (i, t) = pr := hpair
  exact ⟨hi, hfind⟩

theorem buildMergeMap_keys_nodup (gdf : List (Finset Cell)) (thr : ℚ) :
    ((buildMergeMap gdf thr).map Prod.fst).Nodup := by
  unfold buildMergeMap
  rw [map_fst_filterMap_pairs]
  exact (smallIndices_nodup gdf thr).filter _

theorem buildMergeMap_keys_small {gdf : List (Finset Cell)} {thr : ℚ} {i : Nat}
    (h : i ∈ (buildMergeMap gdf thr).map Prod.fst) :
    i < gdf.length ∧ area (gdf.getD i ∅) ≤ thr := by
  obtain ⟨pr, hpr, hfst⟩ := List.mem_map.mp h
  exact mem_smallIndices.mp (hfst ▸ (mem_buildMergeMap hpr).1)

theorem find_longest_some_props {small_geom : Finset Cell}
    {gdf : List (Finset Cell)} {small_idx : Nat} {thr : ℚ} {j : Nat}
    (hj : find_longest_shared_boundary_neighbor small_geom gdf small_idx thr =
      some j) :
    j < gdf.length ∧ thr < area (gdf.getD j ∅) := by
  have hmain := bestFold_spec
    (fun i => i = small_idx ∨ area (gdf.getD i ∅) ≤ thr ∨
      ¬cellsIntersect small_geom (gdf.getD i ∅))
    (fun i => sharedBoundaryLength small_geom (gdf.getD i ∅))
    (fun i => sharedBoundaryLength_nonneg _ _)
    (sindexQuery small_geom gdf) [] (none, 0) (by simp)
    (sindexQuery_sorted _ _)
    ⟨fun _ => ⟨rfl, by simp⟩, fun j hj => by simp at hj⟩
  simp only [List.nil_append] at hmain
  obtain ⟨hjm, hjsk, _, _, _⟩ := hmain.2 j hj
  dsimp only at hjsk
  simp only [decide_eq_false_iff_not, not_or, not_le, not_not] at hjsk
  have hjr : j < gdf.length := by
    have := List.mem_filter.mp hjm
    exact List.mem_range.mp this.1
  exact ⟨hjr, hjsk.2.1⟩

theorem buildMergeMap_range {gdf : List (Finset Cell)} {thr : ℚ}
    {pr : Nat × Nat} (hpr : pr ∈ buildMergeMap gdf thr) :
    pr.1 < gdf.length ∧ pr.2 < gdf.length := by
  obtain ⟨hsm, hfind⟩ := mem_buildMergeMap hpr
  exact ⟨(mem_smallIndices.mp hsm).1, (find_longest_some_props hfind).1⟩

theorem buildMergeMap_targets_not_keys {gdf : List (Finset Cell)} {thr : ℚ}
    {pr : Nat × Nat} (hpr : pr ∈ buildMergeMap gdf thr) :
    pr.2 ∉ (buildMergeMap gdf thr).map Prod.fst := by
  intro hmem
  obtain ⟨_, hfind⟩ := mem_buildMergeMap hpr
  have hbig := (find_longest_some_props hfind).2
  have hsmall := (buildMergeMap_keys_small hmem).2
  exact absurd hsmall (not_le.mpr hbig)

theorem applyGroup_length (st : List (Finset Cell) × Finset Nat)
    (g : Nat × List Nat) : (applyGroup st g).1.length = st.1.length := by
  unfold applyGroup
  by_cases h : g.1 ∈ st.2
  · rw [if_pos h]
  · rw [if_neg h]
    rcases hc : collectSrcs g.2 st.2 with ⟨srcs, drop2⟩
    dsimp only
    rw [List.length_set]

theorem foldl_applyGroup_length :
    ∀ (G : List (Nat × List Nat)) (st : List (Finset Cell) × Finset Nat),
      (G.foldl applyGroup st).1.length = st.1.length := by
  intro G
  induction G with
  | nil => intro st; rfl
  | cons g G' ih =>
    intro st
    rw [List.foldl_cons, ih]
    exact applyGroup_length st g

theorem apply_merges_length_le (gdf : List (Finset Cell))
    (mm : List (Nat × Nat)) :
    (apply_merges gdf mm).length ≤ gdf.length := by
  unfold apply_merges
  rcases hc : (groupByTarget mm).foldl applyGroup (gdf, ∅) with ⟨cur, drop⟩
  dsimp only
  rw [List.length_map]
  calc ((List.range cur.length).filter (fun i => i ∉ drop)).length
      ≤ (List.range cur.length).length := List.length_filter_le _ _
  _ = cur.length := List.length_range _
  _ = gdf.length := by
      have := foldl_applyGroup_length (groupByTarget mm) (gdf, ∅)
      rw [hc] at this
      exact this

theorem eliminate_length_le :
    ∀ (iters : Nat) (gdf : List (Finset Cell)) (thr : ℚ),
      (eliminate_small_polygons gdf thr iters).1.length ≤ gdf.length := by
  intro iters
  induction iters with
  | zero => intro gdf thr; exact le_refl _
  | succ k ih =>
    intro gdf thr
    cases h1 : (smallIndices gdf thr).isEmpty with
    | true => simp [eliminate_small_polygons, h1]
    | false =>
      cases h2 : (buildMergeMap gdf thr).isEmpty with
      | true => simp [eliminate_small_polygons, h1, h2]
      | false =>
        simp only [eliminate_small_polygons, h1, h2, Bool.false_eq_true,
          if_false]
        exact le_trans (ih _ thr) (apply_merges_length_le gdf _)

theorem tiered_length_le :
    ∀ (thresholds : List ℚ) (gdf : List (Finset Cell)),
      (tiered_eliminate gdf thresholds).length ≤ gdf.length := by
  intro thresholds
  induction thresholds with
  | nil => intro gdf; exact le_refl _
  | cons thr rest ih =>
    intro gdf
    unfold tiered_eliminate
    rw [List.foldl_cons]
    exact le_trans (ih (eliminate_small_polygons gdf thr 10).1)
      (eliminate_length_le 10 gdf thr)

/-- **C3**: for one merge iteration of the elimination engine (a polygon
set with pairwise interior-disjoint geometries and a non-empty engine-built
merge map whose group unions stay single-part, as they do when every source
shares positive boundary with its target), the polygon count decreases by
exactly the number of merges and the total covered area is conserved
exactly (hence within any tolerance); and across a whole tiered run the
polygon count is monotonically non-increasing. -/
theorem C3_merge_conservation (gdf : List (Finset Cell)) (thr : ℚ)
    (hpw : gdf.Pairwise Disjoint)
    (hsingle : ∀ g ∈ groupByTarget (buildMergeMap gdf thr),
      isMultiPart (unary_union (gdf.getD g.1 ∅ ::
        g.2.map (fun s => gdf.getD s ∅))) = false)
    (hne : buildMergeMap gdf thr ≠ []) :
    (apply_merges gdf (buildMergeMap gdf thr)).length +
      (buildMergeMap gdf thr).length = gdf.length ∧
    (apply_merges gdf (buildMergeMap gdf thr)).length < gdf.length ∧
    totalArea (apply_merges gdf (buildMergeMap gdf thr)) = totalArea gdf ∧
    ∀ thresholds : List ℚ,
      (tiered_eliminate gdf thresholds).length ≤ gdf.length := by
  have hndS : (flatSrcs (groupByTarget (buildMergeMap gdf thr))).Nodup :=
    (List.Perm.nodup_iff (flatSrcs_groupByTarget _)).mpr
      (buildMergeMap_keys_nodup gdf thr)
  have hmemS : ∀ s ∈ flatSrcs (groupByTarget (buildMergeMap gdf thr)),
      s ∈ (buildMergeMap gdf thr).map Prod.fst :=
    fun s hs => (flatSrcs_groupByTarget _).mem_iff.mp hs
  have hbG : ∀ g ∈ groupByTarget (buildMergeMap gdf thr),
      g.1 < gdf.length ∧ ∀ s ∈ g.2, s < gdf.length := by
    intro g hg
    constructor
    · obtain ⟨pr, hpr, h2⟩ :=
        List.mem_map.mp (groupByTarget_targets_mem _ g hg)
      exact h2 ▸ (buildMergeMap_range hpr).2
    · intro s hs
      exact (buildMergeMap_keys_small (hmemS s (mem_flatSrcs hg hs))).1
  have htnsG : ∀ g ∈ groupByTarget (buildMergeMap gdf thr),
      g.1 ∉ flatSrcs (groupByTarget (buildMergeMap gdf thr)) := by
    intro g hg hmem
    obtain ⟨pr, hpr, h2⟩ := List.mem_map.mp (groupByTarget_targets_mem _ g hg)
    have hk : pr.2 ∈ (buildMergeMap gdf thr).map Prod.fst := by
      rw [h2]
      exact hmemS _ hmem
    exact buildMergeMap_targets_not_keys hpr hk
  obtain ⟨h1, h2, h3⟩ := applyGroups_spec gdf (getD_disjoint_of_pairwise hpw)
    (groupByTarget (buildMergeMap gdf thr)) gdf ∅ rfl hbG
    (fun g _ => ⟨Finset.not_mem_empty _, fun s _ => Finset.not_mem_empty _⟩)
    (fun g _ => ⟨rfl, fun s _ => rfl⟩)
    hndS (groupByTarget_targets_nodup _) htnsG hsingle
  rcases hc : (groupByTarget (buildMergeMap gdf thr)).foldl applyGroup (gdf, ∅)
    with ⟨cur, drop⟩
  rw [hc] at h1 h2 h3
  dsimp only at h1 h2 h3
  have happ : apply_merges gdf (buildMergeMap gdf thr) =
      ((List.range cur.length).filter (fun i => i ∉ drop)).map
        (fun i => cur.getD i ∅) := by
    unfold apply_merges
    rw [hc]
  have hdropcard : drop.card = (buildMergeMap gdf thr).length := by
    rw [h2]
    simp only [Finset.empty_union]
    rw [List.toFinset_card_of_nodup hndS,
      (flatSrcs_groupByTarget _).length_eq, List.length_map]
  have hdropbound : ∀ i ∈ drop, i < gdf.length := by
    intro i hi
    rw [h2] at hi
    simp only [Finset.empty_union, List.mem_toFinset] at hi
    exact (buildMergeMap_keys_small (hmemS i hi)).1
  have hcount : (apply_merges gdf (buildMergeMap gdf thr)).length +
      (buildMergeMap gdf thr).length = gdf.length := by
    rw [happ, List.length_map, ← hdropcard, h1]
    exact final_length gdf.length drop hdropbound
  refine ⟨hcount, ?_, ?_, fun thresholds => tiered_length_le thresholds gdf⟩
  · have hpos : 0 < (buildMergeMap gdf thr).length := List.length_pos.mpr hne
    omega
  · rw [happ, final_sum cur drop, h1, h3, survivorSum_empty]

/-- Concrete instance of `C3_merge_conservation`: a small unit square
merged into its edge-sharing neighbor of area 2. -/
theorem C3_merge_conservation_witness :
    totalArea (apply_merges
        [{((0 : ℤ), (0 : ℤ))}, {((1 : ℤ), (0 : ℤ)), ((1 : ℤ), (1 : ℤ))}]
        (buildMergeMap
          [{((0 : ℤ), (0 : ℤ))}, {((1 : ℤ), (0 : ℤ)), ((1 : ℤ), (1 : ℤ))}] 1)) =
      totalArea
        [{((0 : ℤ), (0 : ℤ))}, {((1 : ℤ), (0 : ℤ)), ((1 : ℤ), (1 : ℤ))}] :=
  (C3_merge_conservation
    [{((0 : ℤ), (0 : ℤ))}, {((1 : ℤ), (0 : ℤ)), ((1 : ℤ), (1 : ℤ))}] 1
    (by decide) (by decide) (by decide)).2.2.1

end CsbFoss
